import Mathlib

/-!
# SIMD_Processor: host-side pipeline of `src/vitis/helloworld.c`

A shallow embedding of the image reshaping pipeline (`im2col`,
`reorder_for_dma`, `pack_u8_to_u32`), of the two DMA interrupt handlers and of
`main` with its receive loop and its wait loop, followed by theorems about
them.

Conventions of the embedding

* A `u8` is a `Fin 256`; a `u32` is a natural number, every `u32` operation
  being reduced modulo `2 ^ 32` explicitly.
* The configuration macros (`IMAGE_HEIGHT`, `IMAGE_WIDTH`, `KERNEL_SIZE`,
  `WINDOW_SIZE`, `NUM_PATCHES`) are parameters of the functions that use them;
  the values of the source are the definitions of the same names below.
* A C `for (int i = 0; i < n; i++)` loop is `forLoop n body`: the body is run
  for `i = 0, 1, ..., n-1` in this order (not at all when `n <= 0`).
* Memory reached through a pointer (`u8 *buffer`, `u32 *dst`) is a function
  from offsets to values.  A `Buffer` also records every offset that was
  stored to, so that the extent of the writes can be stated.
-/

namespace SIMDProcessor

/-! ## Machine types and loops -/

/-- An unsigned 8-bit sample, the `u8` of the source. -/
abbrev U8 := Fin 256

/-- The loop `for (int i = 0; i < n; i++) body`, threading the state `s`. -/
def forLoop {σ : Type} (n : Nat) (body : Nat → σ → σ) (s : σ) : σ :=
  (List.range n).foldl (fun st i => body i st) s

/-- The value of a 32-bit pattern read as a C `int`: the result of an `int`
operation whose mathematical value is `x`. -/
def wrapInt32 (x : Int) : Int := (x + 2 ^ 31) % 2 ^ 32 - 2 ^ 31

/-- The largest C `int`. -/
def INT_MAX : Int := 2 ^ 31 - 1

/-! ## Configuration (lines 11-17 of the source) -/

/-- The macro `IMAGE_WIDTH`. -/
def IMAGE_WIDTH : Nat := 28
/-- The macro `IMAGE_HEIGHT`. -/
def IMAGE_HEIGHT : Nat := 28
/-- The macro `IMAGE_SIZE`, that is `(IMAGE_WIDTH*IMAGE_HEIGHT)`. -/
def IMAGE_SIZE : Nat := IMAGE_WIDTH * IMAGE_HEIGHT
/-- The macro `KERNEL_SIZE`. -/
def KERNEL_SIZE : Nat := 3
/-- The macro `WINDOW_SIZE`. -/
def WINDOW_SIZE : Nat := 8
/-- The macro `NUM_PATCHES`, as an `int` expression of the configuration:
`((IMAGE_WIDTH-KERNEL_SIZE+1)*(IMAGE_HEIGHT-KERNEL_SIZE+1))`. -/
def numPatches (W H K : Nat) : Int :=
  ((W : Int) - (K : Int) + 1) * ((H : Int) - (K : Int) + 1)
/-- The macro `NUM_PATCHES` at the values of the source. -/
def NUM_PATCHES : Nat := (numPatches IMAGE_WIDTH IMAGE_HEIGHT KERNEL_SIZE).toNat
/-- The local `tx_bytes` of `main`: `KERNEL_SIZE*KERNEL_SIZE*NUM_PATCHES`,
which is also the declared length of the array `tx_u8`. -/
def tx_bytes : Nat := KERNEL_SIZE * KERNEL_SIZE * NUM_PATCHES
/-- The local `tx_words` of `main`: `(tx_bytes + 3)/4`. -/
def tx_words : Nat := (tx_bytes + 3) / 4

/-! ## Memory -/

/-- A two-dimensional `u8` array (`image[H][W]`, `cols[K*K][P]`), indexed by
row and column. -/
abbrev Matrix := Nat → Nat → U8

/-- The assignment `m[r][c] = v`. -/
def Matrix.set (m : Matrix) (r c : Nat) (v : U8) : Matrix :=
  fun r' c' => if r' = r ∧ c' = c then v else m r' c'

/-- The memory reached through a `u8 *` together with the list of the offsets
that have been stored to, most recent first. -/
structure Buffer where
  /-- The byte at each offset from the pointer. -/
  data : Nat → U8
  /-- The offsets stored to so far, most recent first. -/
  stores : List Nat

/-- The assignment `buffer[i] = v`. -/
def Buffer.store (b : Buffer) (i : Nat) (v : U8) : Buffer :=
  { data := fun j => if j = i then v else b.data j, stores := i :: b.stores }

/-! ## `im2col` (lines 45-61) -/

/-- The function `im2col`, with `IMAGE_HEIGHT = H`, `IMAGE_WIDTH = W` and
`KERNEL_SIZE = K`.  The counters `patch` and `k` are carried in the loop
states exactly as the source increments them. -/
def im2col (H W K : Nat) (image : Matrix) (cols : Matrix) : Matrix :=
  let out_h : Int := (H : Int) - (K : Int) + 1
  let out_w : Int := (W : Int) - (K : Int) + 1
  (forLoop out_h.toNat (fun y st =>
    forLoop out_w.toNat (fun x (st : Matrix × Nat) =>
      let patch := st.2
      let inner := forLoop K (fun i st =>
        forLoop K (fun j (st : Matrix × Nat) =>
          (st.1.set st.2 patch (image (y + i) (x + j)), st.2 + 1)) st) (st.1, 0)
      (inner.1, patch + 1)) st) (cols, 0)).1

/-! ## `reorder_for_dma` (lines 64-84) -/

/-- The function `reorder_for_dma`, with `KERNEL_SIZE = K`, `NUM_PATCHES = P`
and `WINDOW_SIZE = WB` (the source divides by `WINDOW_SIZE`, so `WB` is
positive wherever the C function is defined). -/
def reorder_for_dma (K P WB : Nat) (cols : Matrix) (buffer : Buffer) : Buffer :=
  let win := P / WB
  let rem := P % WB
  let buffer := forLoop win (fun w b =>
    forLoop (K * K) (fun k b =>
      forLoop WB (fun p b =>
        b.store (w * K * K * WB + k * WB + p) (cols k (w * WB + p))) b) b) buffer
  if rem ≠ 0 then
    let base := win * K * K * WB
    forLoop (K * K) (fun k b =>
      forLoop rem (fun p b =>
        b.store (base + k * WB + p) (cols k (win * WB + p))) b) buffer
  else buffer

/-! ## `pack_u8_to_u32` (lines 87-93) -/

/-- The function `pack_u8_to_u32`.  `bytes` is a C `int`; `bytes+3` is an
`int` addition, reduced to 32 bits, and `/4` is the truncating division of C.
The shift and the or are `u32` operations. -/
def pack_u8_to_u32 (src : Nat → U8) (dst : Nat → Nat) (bytes : Int) : Nat → Nat :=
  let dst := forLoop (Int.tdiv (wrapInt32 (bytes + 3)) 4).toNat
    (fun i d => Function.update d i 0) dst
  forLoop bytes.toNat
    (fun i d => Function.update d (i / 4)
      ((d (i / 4) ||| (((src i).val <<< (8 * (i % 4))) % 2 ^ 32)) % 2 ^ 32)) dst

/-! ## Interrupt handlers and the wait loop (lines 96-131, 232-237) -/

/-- The shared variables `TxDone`, `RxDone` and `Error`, and the number of
calls of `XAxiDma_Reset` made so far. -/
structure Flags where
  /-- The global `TxDone`. -/
  TxDone : Int
  /-- The global `RxDone`. -/
  RxDone : Int
  /-- The global `Error`. -/
  Error : Int
  /-- How many times `XAxiDma_Reset(&AxiDma)` has been called. -/
  resets : Nat
deriving DecidableEq, Repr

/-- The values of the two masks of `xaxidma.h` that the handlers test; the
header is not part of the sources, so they are parameters. -/
structure IrqMasks where
  /-- The macro `XAXIDMA_IRQ_ERROR_MASK`. -/
  XAXIDMA_IRQ_ERROR_MASK : Nat
  /-- The macro `XAXIDMA_IRQ_IOC_MASK`. -/
  XAXIDMA_IRQ_IOC_MASK : Nat

/-- The values the Xilinx driver header gives the masks. -/
def xilinxMasks : IrqMasks :=
  { XAXIDMA_IRQ_ERROR_MASK := 0x4000, XAXIDMA_IRQ_IOC_MASK := 0x1000 }

/-- The handler `TxIntrHandler`, as a function of the status `IrqStatus` that
`XAxiDma_IntrGetIrq` returned. -/
def TxIntrHandler (m : IrqMasks) (IrqStatus : Nat) (s : Flags) : Flags :=
  if IrqStatus &&& m.XAXIDMA_IRQ_ERROR_MASK ≠ 0 then
    { s with Error := 1, resets := s.resets + 1 }
  else if IrqStatus &&& m.XAXIDMA_IRQ_IOC_MASK ≠ 0 then
    { s with TxDone := 1 }
  else s

/-- The handler `RxIntrHandler`, as a function of the status `IrqStatus` that
`XAxiDma_IntrGetIrq` returned. -/
def RxIntrHandler (m : IrqMasks) (IrqStatus : Nat) (s : Flags) : Flags :=
  if IrqStatus &&& m.XAXIDMA_IRQ_ERROR_MASK ≠ 0 then
    { s with Error := 1, resets := s.resets + 1 }
  else if IrqStatus &&& m.XAXIDMA_IRQ_IOC_MASK ≠ 0 then
    { s with RxDone := 1 }
  else s

/-- The statement `TxDone = RxDone = Error = 0;` of `main` (line 214), at the
start of a run in which no reset has been requested yet. -/
def resetFlags : Flags := { TxDone := 0, RxDone := 0, Error := 0, resets := 0 }

/-- What one evaluation of the wait loop of `main` decides. -/
inductive Verdict where
  /-- The loop condition is false: `main` goes on to the success path. -/
  | Completed
  /-- The loop body returns `XST_FAILURE`. -/
  | Failed
  /-- The loop goes round again. -/
  | Pending
deriving DecidableEq, Repr

/-- One evaluation of `while (!TxDone || !RxDone) { if (Error) return
XST_FAILURE; }` on the current values of the flags. -/
def poll (s : Flags) : Verdict :=
  if s.TxDone = 0 ∨ s.RxDone = 0 then
    if s.Error ≠ 0 then Verdict.Failed else Verdict.Pending
  else Verdict.Completed

/-- The two transfer directions, each served by one handler. -/
inductive Direction where
  /-- Outbound, `XAXIDMA_DMA_TO_DEVICE`, served by `TxIntrHandler`. -/
  | tx
  /-- Inbound, `XAXIDMA_DEVICE_TO_DMA`, served by `RxIntrHandler`. -/
  | rx
deriving DecidableEq, Repr

/-- One interrupt: the direction that raised it and the status it reads. -/
abbrev Notification := Direction × Nat

/-- The interrupt controller runs the handler connected to the direction. -/
def deliver (m : IrqMasks) (n : Notification) (s : Flags) : Flags :=
  match n.1 with
  | Direction.tx => TxIntrHandler m n.2 s
  | Direction.rx => RxIntrHandler m n.2 s

/-- The notifications of a list are delivered one after the other. -/
def deliverAll (m : IrqMasks) (ns : List Notification) (s : Flags) : Flags :=
  ns.foldl (fun st n => deliver m n st) s

/-- A notification carries the error bit. -/
def isError (m : IrqMasks) (n : Notification) : Bool :=
  n.2 &&& m.XAXIDMA_IRQ_ERROR_MASK != 0


/-! ## Lists of writes -/

/-- A list of writes `(index, value)` performed in order through `wr`. -/
def applyWrites {σ ι : Type} (wr : σ → ι → U8 → σ) (ws : List (ι × U8)) (s : σ) : σ :=
  ws.foldl (fun st w => wr st w.1 w.2) s

/-- Reading `m[i.1][i.2]`. -/
def Matrix.rd (m : Matrix) (i : Nat × Nat) : U8 := m i.1 i.2

/-- The assignment `m[i.1][i.2] = v`. -/
def Matrix.wr (m : Matrix) (i : Nat × Nat) (v : U8) : Matrix := m.set i.1 i.2 v

/-- The writes `cols[k][patch] = image[y+i][x+j]` of `im2col` in the order of
its loops, `k` and `patch` in closed form (`im2col_eq_writes` shows that the
function performs exactly these). -/
def im2colWrites (K oh ow : Nat) (image : Matrix) : List ((Nat × Nat) × U8) :=
  (List.range oh).flatMap fun y => (List.range ow).flatMap fun x =>
    (List.range K).flatMap fun i => (List.range K).flatMap fun j =>
      [((i * K + j, y * ow + x), image (y + i) (x + j))]

/-- The writes `buffer[w*K*K*WB + k*WB + p] = cols[k][w*WB + p]` of the first
loop nest of `reorder_for_dma`, in the order of its loops. -/
def reorderFullWrites (K win WB : Nat) (cols : Matrix) : List (Nat × U8) :=
  (List.range win).flatMap fun w => (List.range (K * K)).flatMap fun k =>
    (List.range WB).flatMap fun p =>
      [(w * K * K * WB + k * WB + p, cols k (w * WB + p))]

/-- The writes `buffer[base + k*WB + p] = cols[k][win*WB + p]` of the second
loop nest of `reorder_for_dma` (none when `rem = 0`), in the order of its
loops. -/
def reorderRemWrites (K win rem WB : Nat) (cols : Matrix) : List (Nat × U8) :=
  (List.range (K * K)).flatMap fun k => (List.range rem).flatMap fun p =>
    [(win * K * K * WB + k * WB + p, cols k (win * WB + p))]

/-- The destination index of the sample `cols[k][p]` in the transfer buffer:
window `p / WB`, kernel row `k`, offset `p mod WB`. -/
def destIndex (K WB k p : Nat) : Nat := p / WB * K * K * WB + k * WB + p % WB

/-- The entries `(k, p)` of the patch matrix of the source's configuration
whose destination index is not below `tx_bytes`, in row-major order. -/
def unsentEntries : List (Nat × Nat) :=
  (List.range (KERNEL_SIZE * KERNEL_SIZE)).flatMap fun k =>
    ((List.range NUM_PATCHES).filter fun p =>
      decide (tx_bytes ≤ destIndex KERNEL_SIZE WINDOW_SIZE k p)).map fun p => (k, p)

/-- A patch matrix used to exercise the theorems: entry `(k, p)` is `k + 9p`
modulo 256. -/
def sampleCols : Matrix := fun k p => ⟨(k + 9 * p) % 256, Nat.mod_lt _ (by decide)⟩

/-- A buffer on which nothing has been stored yet, all bytes `0xAA`. -/
def freshBuffer : Buffer := { data := fun _ => 0xAA, stores := [] }

/-- The byte `b(j)` of the specification of the packer: `src[j]` when
`j < n`, zero otherwise. -/
def byteOrZero (src : Nat → U8) (n j : Nat) : Nat :=
  if j < n then (src j).val else 0

/-- The little-endian word `b0 | b1<<8 | b2<<16 | b3<<24`. -/
def leWord (b0 b1 b2 b3 : Nat) : Nat :=
  b0 ||| b1 <<< 8 ||| b2 <<< 16 ||| b3 <<< 24

/-- The unpack operation of the specification: byte `i` of a sequence of
little-endian words, `(dst[i/4] >> (8*(i mod 4))) & 0xFF`. -/
def unpackByte (dst : Nat → Nat) (i : Nat) : Nat :=
  (dst (i / 4) >>> (8 * (i % 4))) &&& 0xFF

/-- The word `w` that the second loop of `pack_u8_to_u32` has assembled once
it has consumed the bytes `0, ..., m-1`. -/
def packedWord (src : Nat → U8) (m w : Nat) : Nat :=
  leWord (byteOrZero src m (4 * w)) (byteOrZero src m (4 * w + 1))
    (byteOrZero src m (4 * w + 2)) (byteOrZero src m (4 * w + 3))

/-- A byte sequence used to exercise the theorems: byte `i` is `i + 1` modulo
256, so that it starts `1, 2, 3`. -/
def sampleBytes : Nat → U8 := fun i => ⟨(i + 1) % 256, Nat.mod_lt _ (by decide)⟩

/-! ## `main` (lines 158-248) -/

/-- The status `XST_FAILURE` of the Xilinx header `xstatus.h`. -/
def XST_FAILURE : Int := 1

/-- The macro `MAX_COUNT`. -/
def MAX_COUNT : Nat := 512

/-- The macro `RX_PKT_LEN_BYTES`, `MAX_COUNT * sizeof(u32)`. -/
def RX_PKT_LEN_BYTES : Nat := MAX_COUNT * 4

/-- The stores of one `XUartPs_Recv` call: the bytes received are written
from offset `off` upwards. -/
def storeBytes (b : Buffer) (off : Nat) : List U8 → Buffer
  | [] => b
  | c :: cs => storeBytes (b.store off c) (off + 1) cs

/-- The variables of the receive loop of `main`: the image, addressed as the
flat byte array `&image[0][0]`, and the counter `recvd`. -/
structure RecvState where
  /-- The array `image`, byte `y * IMAGE_WIDTH + x` being `image[y][x]`. -/
  image : Buffer
  /-- The local `recvd`, a C `int`. -/
  recvd : Int

/-- One iteration of the receive loop,
`recvd += XUartPs_Recv(&Uart, &image[0][0] + recvd, IMAGE_SIZE - recvd)`.
The serial port is the function `uart`: at its call number `call`, asked for
at most `max` bytes, it delivers the bytes `uart call max`, which the driver
stores at the pointer it was given and counts in its `u32` result.  The
argument `IMAGE_SIZE - recvd` is converted to `u32` and the sum is converted
back to `int`; the pointer offset is `recvd`, which is not negative as long
as the sum has not wrapped around. -/
def recvStep (uart : Nat → Nat → List U8) (call : Nat) (s : RecvState) : RecvState :=
  let got := uart call (((IMAGE_SIZE : Int) - s.recvd) % 2 ^ 32).toNat
  { image := storeBytes s.image s.recvd.toNat got,
    recvd := wrapInt32 (s.recvd + ((got.length % 2 ^ 32 : Nat) : Int)) }

/-- The loop `while (recvd < IMAGE_SIZE) recvd += XUartPs_Recv(...)`, observed
for at most `fuel` iterations: `none` when it is still running after them. -/
def recvLoop (uart : Nat → Nat → List U8) : Nat → Nat → RecvState → Option RecvState
  | 0, _, s => if s.recvd < (IMAGE_SIZE : Int) then none else some s
  | fuel + 1, call, s =>
    if s.recvd < (IMAGE_SIZE : Int) then recvLoop uart fuel (call + 1) (recvStep uart call s)
    else some s

/-- The state of the receive loop after `k` iterations from `s0`, the serial
port being called for the `k`-th time at iteration `k`. -/
def recvIter (uart : Nat → Nat → List U8) (s0 : RecvState) : Nat → RecvState
  | 0 => s0
  | k + 1 => recvStep uart k (recvIter uart s0 k)

/-- The array `image[IMAGE_HEIGHT][IMAGE_WIDTH]` over its flat bytes. -/
def imageMatrix (b : Buffer) : Matrix := fun y x => b.data (y * IMAGE_WIDTH + x)

/-- The static data of `main`, the shared flags and the calls of
`XAxiDma_SimpleTransfer` made so far (direction and length in bytes). -/
structure MainState where
  /-- The array `image`. -/
  image : Buffer
  /-- The array `cols`. -/
  cols : Matrix
  /-- The array `tx_u8`. -/
  tx_u8 : Buffer
  /-- The array `tx_u32`. -/
  tx_u32 : Nat → Nat
  /-- The global `RxBuffer`; the program itself never stores to it. -/
  RxBuffer : Nat → Nat
  /-- The globals `TxDone`, `RxDone`, `Error` and the count of resets. -/
  flags : Flags
  /-- The calls of `XAxiDma_SimpleTransfer`, oldest first. -/
  transfers : List (Direction × Nat)

/-- What surrounds `main`: the serial port, the DMA engine and its
interrupts. -/
structure Env where
  /-- The bytes the serial port delivers at each `XUartPs_Recv` call. -/
  uart : Nat → Nat → List U8
  /-- For how many iterations the receive loop is observed. -/
  uartFuel : Nat
  /-- The result of `XAxiDma_HasSg(&AxiDma)`. -/
  hasSg : Bool
  /-- The two masks of `xaxidma.h`. -/
  masks : IrqMasks
  /-- The interrupts raised before each evaluation of the wait loop. -/
  irqs : List (List Notification)

/-- The wait loop `while (!TxDone || !RxDone) { if (Error) return XST_FAILURE; }`
followed by the success path, which returns 0.  Before each evaluation the
handlers of the interrupts raised in the meantime have run; `none` when the
loop is still pending after the last of them. -/
def waitLoop (m : IrqMasks) : List (List Notification) → Flags → Option (Int × Flags)
  | [], _ => none
  | ns :: rest, f =>
    match poll (deliverAll m ns f) with
    | Verdict.Completed => some (0, deliverAll m ns f)
    | Verdict.Failed => some (XST_FAILURE, deliverAll m ns f)
    | Verdict.Pending => waitLoop m rest (deliverAll m ns f)

/-- Lines 203-209 of `main`: `im2col(image, cols)`,
`reorder_for_dma(cols, tx_u8)` and `pack_u8_to_u32(tx_u8, tx_u32, tx_bytes)`. -/
def prepare (s : MainState) : MainState :=
  let cols := im2col IMAGE_HEIGHT IMAGE_WIDTH KERNEL_SIZE (imageMatrix s.image) s.cols
  let tx_u8 := reorder_for_dma KERNEL_SIZE NUM_PATCHES WINDOW_SIZE cols s.tx_u8
  let tx_u32 := pack_u8_to_u32 tx_u8.data s.tx_u32 (tx_bytes : Int)
  { s with cols := cols, tx_u8 := tx_u8, tx_u32 := tx_u32 }

/-- The function `main`: its return value and the final state, or `none` when
one of its two loops is still running at the end of the observation.  The
calls that set up the UART, the DMA engine, the interrupt controller and the
caches, and the printing, store to none of the data of `MainState` and are
left out. -/
def main (env : Env) (s : MainState) : Option (Int × MainState) :=
  match recvLoop env.uart env.uartFuel 0 { image := s.image, recvd := 0 } with
  | none => none
  | some r =>
    let s := { s with image := r.image }
    if env.hasSg then some (XST_FAILURE, s)
    else
      let s := prepare s
      let s := { s with flags := { s.flags with TxDone := 0, RxDone := 0, Error := 0 } }
      let s := { s with transfers := s.transfers ++ [(Direction.tx, tx_words * 4)] }
      let s := { s with transfers := s.transfers ++ [(Direction.rx, RX_PKT_LEN_BYTES)] }
      match waitLoop env.masks env.irqs s.flags with
      | none => none
      | some (status, flags) => some (status, { s with flags := flags })

/-- A serial port that delivers at most 100 bytes per call, all of value 7. -/
def sampleUart : Nat → Nat → List U8 := fun _ max => List.replicate (min max 100) 7

/-- A state of `main` before it runs: buffers with recognisable contents, no
store and no transfer yet. -/
def sampleState : MainState :=
  { image := freshBuffer, cols := sampleCols, tx_u8 := freshBuffer, tx_u32 := fun _ => 5,
    RxBuffer := fun _ => 6, flags := resetFlags, transfers := [] }

/-- A serial port that respects its contract and never delivers a byte. -/
def silentUart : Nat → Nat → List U8 := fun _ _ => []

/-- An environment whose DMA engine reports scatter-gather and whose serial
port is silent, the receive loop being observed for `fuel` iterations. -/
def silentSgEnv (fuel : Nat) : Env :=
  { uart := silentUart, uartFuel := fuel, hasSg := true, masks := xilinxMasks, irqs := [] }

/-- An environment whose DMA engine reports scatter-gather. -/
def sgEnv : Env :=
  { uart := sampleUart, uartFuel := 8, hasSg := true, masks := xilinxMasks, irqs := [] }

/-- An image used to exercise the theorems: sample `(r, c)` is `7r + c` modulo
256. -/
def sampleImage : Matrix := fun r c => ⟨(7 * r + c) % 256, Nat.mod_lt _ (by decide)⟩

/-! ## Loops, counters and lists of writes: general facts -/

theorem forLoop_zero {σ : Type} (body : Nat → σ → σ) (s : σ) :
    forLoop 0 body s = s := by
  simp [forLoop]

theorem forLoop_succ {σ : Type} (n : Nat) (body : Nat → σ → σ) (s : σ) :
    forLoop (n + 1) body s = body n (forLoop n body s) := by
  simp [forLoop, List.range_succ, List.foldl_append]

theorem applyWrites_nil {σ ι : Type} (wr : σ → ι → U8 → σ) (s : σ) :
    applyWrites wr [] s = s := rfl

theorem applyWrites_append {σ ι : Type} (wr : σ → ι → U8 → σ)
    (ws ws' : List (ι × U8)) (s : σ) :
    applyWrites wr (ws ++ ws') s = applyWrites wr ws' (applyWrites wr ws s) := by
  simp [applyWrites, List.foldl_append]

/-- A loop whose body performs the writes `g a` performs the concatenation of
the `g a` for `a = 0, ..., n-1`. -/
theorem forLoop_eq_applyWrites {σ ι : Type} (wr : σ → ι → U8 → σ)
    (g : Nat → List (ι × U8)) (body : Nat → σ → σ)
    (hb : ∀ a s, body a s = applyWrites wr (g a) s) (n : Nat) (s : σ) :
    forLoop n body s = applyWrites wr ((List.range n).flatMap g) s := by
  induction n with
  | zero => simp [forLoop_zero, applyWrites_nil]
  | succ n ih =>
    rw [forLoop_succ, ih, hb, List.range_succ, List.flatMap_append, applyWrites_append]
    simp

/-- After a list of writes, an index that was written holds the value written
to it, provided all the writes to that index carry the same value. -/
theorem applyWrites_read {σ ι : Type} [DecidableEq ι] (rd : σ → ι → U8)
    (wr : σ → ι → U8 → σ)
    (hrw : ∀ s i v j, rd (wr s i v) j = if j = i then v else rd s j)
    (ws : List (ι × U8)) (s : σ) (i : ι) (v : U8)
    (hmem : (i, v) ∈ ws) (huniq : ∀ v', (i, v') ∈ ws → v' = v) :
    rd (applyWrites wr ws s) i = v := by
  induction ws using List.reverseRecOn with
  | nil => simp at hmem
  | append_singleton ws w ih =>
    rw [applyWrites_append]
    simp only [applyWrites, List.foldl_cons, List.foldl_nil]
    rw [hrw]
    by_cases hi : i = w.1
    · rw [if_pos hi]
      exact huniq w.2 (by simp [hi])
    · rw [if_neg hi]
      have hmem' : (i, v) ∈ ws := by
        rcases List.mem_append.1 hmem with h | h
        · exact h
        · simp only [List.mem_singleton] at h
          exact absurd (by rw [← h]) hi
      exact ih hmem' (fun v' hv' => huniq v' (List.mem_append_left _ hv'))

/-- An index that no write of the list addresses keeps its value. -/
theorem applyWrites_frame {σ ι : Type} [DecidableEq ι] (rd : σ → ι → U8)
    (wr : σ → ι → U8 → σ)
    (hrw : ∀ s i v j, rd (wr s i v) j = if j = i then v else rd s j)
    (ws : List (ι × U8)) (s : σ) (i : ι) (hnot : ∀ w ∈ ws, w.1 ≠ i) :
    rd (applyWrites wr ws s) i = rd s i := by
  induction ws using List.reverseRecOn with
  | nil => rfl
  | append_singleton ws w ih =>
    rw [applyWrites_append]
    simp only [applyWrites, List.foldl_cons, List.foldl_nil]
    rw [hrw, if_neg (fun h => hnot w (by simp) h.symm)]
    exact ih (fun w' hw' => hnot w' (List.mem_append_left _ hw'))

/-- Division with remainder is unique: `a * n + b` with `b < n` determines
`a` and `b`. -/
theorem mul_add_inj (n a b a' b' : Nat) (hb : b < n) (hb' : b' < n)
    (h : a * n + b = a' * n + b') : a = a' ∧ b = b' := by
  have hn : 0 < n := by omega
  have h1 : (a * n + b) / n = a := by
    rw [Nat.add_comm, Nat.add_mul_div_right _ _ hn, Nat.div_eq_of_lt hb, Nat.zero_add]
  have h2 : (a' * n + b') / n = a' := by
    rw [Nat.add_comm, Nat.add_mul_div_right _ _ hn, Nat.div_eq_of_lt hb', Nat.zero_add]
  have ha : a = a' := by rw [← h1, ← h2, h]
  subst ha
  exact ⟨rfl, by omega⟩


/-- A loop that performs the writes `g a k` and increments a counter `k` by
`d` performs the writes `g a (k0 + a * d)` for `a = 0, ..., n-1`. -/
theorem forLoop_counter_writes {σ ι : Type} (wr : σ → ι → U8 → σ) (d : Nat)
    (g : Nat → Nat → List (ι × U8)) (body : Nat → σ × Nat → σ × Nat)
    (hb : ∀ a st, body a st = (applyWrites wr (g a st.2) st.1, st.2 + d))
    (n : Nat) (st : σ × Nat) :
    forLoop n body st
      = (applyWrites wr ((List.range n).flatMap fun a => g a (st.2 + a * d)) st.1,
          st.2 + n * d) := by
  induction n with
  | zero => simp [forLoop_zero, applyWrites_nil]
  | succ n ih =>
    rw [forLoop_succ, ih, hb, List.range_succ, List.flatMap_append, applyWrites_append]
    simp [Nat.succ_mul, Nat.add_assoc]

theorem Matrix.rd_wr (s : Matrix) (i : Nat × Nat) (v : U8) (j : Nat × Nat) :
    Matrix.rd (Matrix.wr s i v) j = if j = i then v else Matrix.rd s j := by
  obtain ⟨r, c⟩ := i
  obtain ⟨r', c'⟩ := j
  simp [Matrix.rd, Matrix.wr, Matrix.set, Prod.mk.injEq]

/-- The function `im2col` performs exactly the writes of `im2colWrites`. -/
theorem im2col_eq_writes (H W K : Nat) (image cols : Matrix) :
    im2col H W K image cols
      = applyWrites Matrix.wr
          (im2colWrites K ((H : Int) - (K : Int) + 1).toNat
            ((W : Int) - (K : Int) + 1).toNat image) cols := by
  unfold im2col im2colWrites
  simp only []
  generalize ((H : Int) - (K : Int) + 1).toNat = oh
  generalize ((W : Int) - (K : Int) + 1).toNat = ow
  -- the loop over `j`
  have hj : ∀ (y x patch i : Nat) (st : Matrix × Nat),
      forLoop K (fun j (st : Matrix × Nat) =>
          (st.1.set st.2 patch (image (y + i) (x + j)), st.2 + 1)) st
        = (applyWrites Matrix.wr ((List.range K).flatMap fun j =>
              [((st.2 + j * 1, patch), image (y + i) (x + j))]) st.1, st.2 + K * 1) := by
    intro y x patch i st
    exact forLoop_counter_writes Matrix.wr 1
      (fun j k => [((k, patch), image (y + i) (x + j))]) _ (fun _ _ => rfl) K st
  -- the loop over `i`
  have hi : ∀ (y x patch : Nat) (st : Matrix × Nat),
      forLoop K (fun i st => forLoop K (fun j (st : Matrix × Nat) =>
          (st.1.set st.2 patch (image (y + i) (x + j)), st.2 + 1)) st) st
        = (applyWrites Matrix.wr ((List.range K).flatMap fun i =>
            (List.range K).flatMap fun j =>
              [((st.2 + i * (K * 1) + j * 1, patch), image (y + i) (x + j))]) st.1,
            st.2 + K * (K * 1)) := by
    intro y x patch st
    exact forLoop_counter_writes Matrix.wr (K * 1)
      (fun i k => (List.range K).flatMap fun j =>
        [((k + j * 1, patch), image (y + i) (x + j))]) _
      (fun i st => hj y x patch i st) K st
  -- the loop over `x`
  have hx : ∀ (y : Nat) (st : Matrix × Nat),
      forLoop ow (fun x (st : Matrix × Nat) =>
          ((forLoop K (fun i st1 => forLoop K (fun j (st2 : Matrix × Nat) =>
            (st2.1.set st2.2 st.2 (image (y + i) (x + j)), st2.2 + 1)) st1) (st.1, 0)).1,
            st.2 + 1)) st
        = (applyWrites Matrix.wr ((List.range ow).flatMap fun x =>
            (List.range K).flatMap fun i => (List.range K).flatMap fun j =>
              [((0 + i * (K * 1) + j * 1, st.2 + x * 1), image (y + i) (x + j))]) st.1,
            st.2 + ow * 1) := by
    intro y st
    exact forLoop_counter_writes Matrix.wr 1
      (fun x p => (List.range K).flatMap fun i => (List.range K).flatMap fun j =>
        [((0 + i * (K * 1) + j * 1, p), image (y + i) (x + j))]) _
      (fun x st => by rw [hi y x st.2 (st.1, 0)]) ow st
  -- the loop over `y`
  have hy := forLoop_counter_writes Matrix.wr (ow * 1)
      (fun y p => (List.range ow).flatMap fun x =>
        (List.range K).flatMap fun i => (List.range K).flatMap fun j =>
          [((0 + i * (K * 1) + j * 1, p + x * 1), image (y + i) (x + j))]) _
      (fun y st => hx y st) oh (cols, 0)
  rw [hy]
  simp


theorem mem_im2colWrites (K oh ow : Nat) (image : Matrix) (w : (Nat × Nat) × U8) :
    w ∈ im2colWrites K oh ow image ↔
      ∃ y, y < oh ∧ ∃ x, x < ow ∧ ∃ i, i < K ∧ ∃ j, j < K ∧
        w = ((i * K + j, y * ow + x), image (y + i) (x + j)) := by
  simp [im2colWrites, List.mem_flatMap]

/-- C1: `im2col` places every image sample at the documented row-major
position.  With the constants as parameters `H`, `W`, `K` such that
`K ≤ H` and `K ≤ W` (and `1 ≤ K`, which follows from `ki < K`), for every
image, every prior contents of `cols`, all `y ≤ H-K`, `x ≤ W-K` and all
`ki, kj < K`, after `im2col(image, cols)` the entry
`cols[ki*K + kj][y*(W-K+1) + x]` equals `image[y+ki][x+kj]`. -/
theorem C1_im2col_row_major (H W K : Nat) (hH : K ≤ H) (hW : K ≤ W)
    (image cols : Matrix) (y x ki kj : Nat)
    (hy : y ≤ H - K) (hx : x ≤ W - K) (hki : ki < K) (hkj : kj < K) :
    im2col H W K image cols (ki * K + kj) (y * (W - K + 1) + x)
      = image (y + ki) (x + kj) := by
  have hoh : ((H : Int) - (K : Int) + 1).toNat = H - K + 1 := by omega
  have how : ((W : Int) - (K : Int) + 1).toNat = W - K + 1 := by omega
  rw [im2col_eq_writes, hoh, how]
  show Matrix.rd _ (ki * K + kj, y * (W - K + 1) + x) = _
  apply applyWrites_read Matrix.rd Matrix.wr Matrix.rd_wr
  · rw [mem_im2colWrites]
    exact ⟨y, by omega, x, by omega, ki, hki, kj, hkj, rfl⟩
  · intro v hv
    rw [mem_im2colWrites] at hv
    obtain ⟨y', _, x', hx', i', _, j', hj', heq⟩ := hv
    simp only [Prod.mk.injEq] at heq
    obtain ⟨⟨hk, hp⟩, rfl⟩ := heq
    obtain ⟨rfl, rfl⟩ := mul_add_inj K ki kj i' j' hkj hj' hk
    obtain ⟨rfl, rfl⟩ := mul_add_inj (W - K + 1) y x y' x' (by omega) hx' hp
    rfl

/-- C1 at the reference configuration (28 x 28 image, 3 x 3 kernel), at the
last output position and the kernel offset `(2, 1)`. -/
theorem C1_im2col_row_major_witness :
    KERNEL_SIZE ≤ IMAGE_HEIGHT ∧ KERNEL_SIZE ≤ IMAGE_WIDTH ∧
    im2col IMAGE_HEIGHT IMAGE_WIDTH KERNEL_SIZE sampleImage (fun _ _ => 0)
        (2 * KERNEL_SIZE + 1) (25 * (IMAGE_WIDTH - KERNEL_SIZE + 1) + 25)
      = sampleImage (25 + 2) (25 + 1) :=
  ⟨by decide, by decide,
    C1_im2col_row_major IMAGE_HEIGHT IMAGE_WIDTH KERNEL_SIZE (by decide) (by decide)
      sampleImage (fun _ _ => 0) 25 25 2 1 (by decide) (by decide) (by decide) (by decide)⟩


/-! ## `reorder_for_dma` -/

theorem Buffer.data_store (s : Buffer) (i : Nat) (v : U8) (j : Nat) :
    (s.store i v).data j = if j = i then v else s.data j := rfl

/-- The offsets recorded by a list of writes are the indices of the list. -/
theorem stores_applyWrites (ws : List (Nat × U8)) (b : Buffer) :
    (applyWrites Buffer.store ws b).stores = (ws.map Prod.fst).reverse ++ b.stores := by
  induction ws generalizing b with
  | nil => rfl
  | cons w ws ih =>
    show (applyWrites Buffer.store ws (b.store w.1 w.2)).stores = _
    rw [ih]
    simp [Buffer.store]

/-- The function `reorder_for_dma` performs exactly the writes of its first
loop nest followed by those of the remainder pass. -/
theorem reorder_eq_writes (K P WB : Nat) (cols : Matrix) (buffer : Buffer) :
    reorder_for_dma K P WB cols buffer
      = applyWrites Buffer.store
          (reorderFullWrites K (P / WB) WB cols
            ++ reorderRemWrites K (P / WB) (P % WB) WB cols) buffer := by
  have hfull : ∀ b : Buffer,
      forLoop (P / WB) (fun w b =>
        forLoop (K * K) (fun k b =>
          forLoop WB (fun p b =>
            b.store (w * K * K * WB + k * WB + p) (cols k (w * WB + p))) b) b) b
        = applyWrites Buffer.store (reorderFullWrites K (P / WB) WB cols) b := by
    intro b
    refine forLoop_eq_applyWrites Buffer.store _ _ (fun w b => ?_) _ b
    refine forLoop_eq_applyWrites Buffer.store _ _ (fun k b => ?_) _ b
    exact forLoop_eq_applyWrites Buffer.store
      (fun p => [(w * K * K * WB + k * WB + p, cols k (w * WB + p))]) _
      (fun _ _ => rfl) _ b
  have hrem : ∀ b : Buffer,
      forLoop (K * K) (fun k b =>
        forLoop (P % WB) (fun p b =>
          b.store (P / WB * K * K * WB + k * WB + p) (cols k (P / WB * WB + p))) b) b
        = applyWrites Buffer.store (reorderRemWrites K (P / WB) (P % WB) WB cols) b := by
    intro b
    refine forLoop_eq_applyWrites Buffer.store _ _ (fun k b => ?_) _ b
    exact forLoop_eq_applyWrites Buffer.store
      (fun p => [(P / WB * K * K * WB + k * WB + p, cols k (P / WB * WB + p))]) _
      (fun _ _ => rfl) _ b
  unfold reorder_for_dma
  simp only []
  rw [applyWrites_append, hfull]
  split
  · rw [hrem]
  · rename_i h
    have h0 : P % WB = 0 := by simpa using h
    have hnil : reorderRemWrites K (P / WB) (P % WB) WB cols = [] := by
      rw [h0]
      unfold reorderRemWrites
      exact List.flatMap_eq_nil_iff.2 (fun _ _ => rfl)
    rw [hnil, applyWrites_nil]

theorem mem_reorderFullWrites (K win WB : Nat) (cols : Matrix) (e : Nat × U8) :
    e ∈ reorderFullWrites K win WB cols ↔
      ∃ w, w < win ∧ ∃ k, k < K * K ∧ ∃ p, p < WB ∧
        e = (w * K * K * WB + k * WB + p, cols k (w * WB + p)) := by
  simp [reorderFullWrites, List.mem_flatMap]

theorem mem_reorderRemWrites (K win rem WB : Nat) (cols : Matrix) (e : Nat × U8) :
    e ∈ reorderRemWrites K win rem WB cols ↔
      ∃ k, k < K * K ∧ ∃ p, p < rem ∧
        e = (win * K * K * WB + k * WB + p, cols k (win * WB + p)) := by
  simp [reorderRemWrites, List.mem_flatMap]

/-- The destination index determines the window, the kernel row and the
offset. -/
theorem reorder_index_inj (K WB w k p w' k' p' : Nat) (hk : k < K * K)
    (hk' : k' < K * K) (hp : p < WB) (hp' : p' < WB)
    (h : w * K * K * WB + k * WB + p = w' * K * K * WB + k' * WB + p') :
    w = w' ∧ k = k' ∧ p = p' := by
  have e : ∀ a b c : Nat, a * K * K * WB + b * WB + c = (a * (K * K) + b) * WB + c := by
    intro a b c
    ring
  rw [e, e] at h
  obtain ⟨h1, h2⟩ := mul_add_inj WB _ _ _ _ hp hp' h
  obtain ⟨h3, h4⟩ := mul_add_inj (K * K) _ _ _ _ hk hk' h1
  exact ⟨h3, h4, h2⟩

/-- What `reorder_for_dma` leaves at the destination of column `w*WB + p`,
for a full window (`w < P / WB`, `p < WB`) or for the remainder
(`w = P / WB`, `p < P % WB`). -/
theorem reorder_data (K P WB : Nat) (cols : Matrix) (buffer : Buffer) (w k p : Nat)
    (hk : k < K * K) (hp : p < WB)
    (hw : w < P / WB ∨ (w = P / WB ∧ p < P % WB)) :
    (reorder_for_dma K P WB cols buffer).data (w * K * K * WB + k * WB + p)
      = cols k (w * WB + p) := by
  have hWB : 0 < WB := by omega
  have hrem : P % WB < WB := Nat.mod_lt _ hWB
  rw [reorder_eq_writes]
  apply applyWrites_read Buffer.data Buffer.store Buffer.data_store
  · rw [List.mem_append, mem_reorderFullWrites, mem_reorderRemWrites]
    rcases hw with hw | ⟨rfl, hp'⟩
    · exact Or.inl ⟨w, hw, k, hk, p, hp, rfl⟩
    · exact Or.inr ⟨k, hk, p, hp', rfl⟩
  · intro v hv
    rw [List.mem_append, mem_reorderFullWrites, mem_reorderRemWrites] at hv
    rcases hv with ⟨w', _, k', hk', p', hp', heq⟩ | ⟨k', hk', p', hp', heq⟩
    · simp only [Prod.mk.injEq] at heq
      obtain ⟨hi, rfl⟩ := heq
      obtain ⟨rfl, rfl, rfl⟩ := reorder_index_inj K WB w k p w' k' p' hk hk' hp hp' hi
      rfl
    · simp only [Prod.mk.injEq] at heq
      obtain ⟨hi, rfl⟩ := heq
      obtain ⟨rfl, rfl, rfl⟩ :=
        reorder_index_inj K WB w k p (P / WB) k' p' hk hk' hp (by omega) hi
      rfl


/-- C2: `reorder_for_dma` lays out every full window window-major, then
kernel-row-major, then offset.  For every patch matrix `cols`, every prior
buffer, every window `w < P / WB`, every kernel row `k < K*K` and every offset
`o < WB`, the buffer after the whole call (remainder pass included) holds
`cols[k][w*WB + o]` at index `w*K*K*WB + k*WB + o`; so reading the buffer back
window by window recovers the patch columns of every full window, whether or
not `P` is a multiple of `WB`. -/
theorem C2_reorder_full_windows (K P WB : Nat) (cols : Matrix) (buffer : Buffer)
    (w k o : Nat) (hw : w < P / WB) (hk : k < K * K) (ho : o < WB) :
    (reorder_for_dma K P WB cols buffer).data (w * K * K * WB + k * WB + o)
      = cols k (w * WB + o) :=
  reorder_data K P WB cols buffer w k o hk ho (Or.inl hw)

/-- C2 at `K = 3`, `P = 9`, `WB = 8` (one full window and a remainder of one
column): the last slot of the last kernel row of window 0. -/
theorem C2_reorder_full_windows_witness :
    0 < 9 / 8 ∧ 8 < 3 * 3 ∧ 7 < 8 ∧
    (reorder_for_dma 3 9 8 sampleCols freshBuffer).data (0 * 3 * 3 * 8 + 8 * 8 + 7)
      = sampleCols 8 (0 * 8 + 7) :=
  ⟨by decide, by decide, by decide,
    C2_reorder_full_windows 3 9 8 sampleCols freshBuffer 0 8 7
      (by decide) (by decide) (by decide)⟩

/-- C3: when `P mod WB = rem > 0`, `reorder_for_dma` writes the remainder
columns at the per-window stride directly after the last full window.  With
`win = P / WB` and `base = win*K*K*WB`, for every `k < K*K` and every
`o < rem` the resulting memory holds `cols[k][win*WB + o]` at offset
`base + k*WB + o` from `buffer` (`WB` is positive, the function dividing by
it). -/
theorem C3_reorder_remainder (K P WB : Nat) (hWB : 0 < WB) (cols : Matrix)
    (buffer : Buffer) (k o : Nat) (hk : k < K * K) (ho : o < P % WB) :
    (reorder_for_dma K P WB cols buffer).data (P / WB * K * K * WB + k * WB + o)
      = cols k (P / WB * WB + o) :=
  reorder_data K P WB cols buffer (P / WB) k o hk
    (Nat.lt_trans ho (Nat.mod_lt _ hWB)) (Or.inr ⟨rfl, ho⟩)

/-- C3 at the reference configuration (`win = 84`, `rem = 4`, `base = 6048`),
at kernel row 4 and the last remainder column. -/
theorem C3_reorder_remainder_witness :
    0 < WINDOW_SIZE ∧ 4 < KERNEL_SIZE * KERNEL_SIZE ∧ 3 < NUM_PATCHES % WINDOW_SIZE ∧
    NUM_PATCHES / WINDOW_SIZE * KERNEL_SIZE * KERNEL_SIZE * WINDOW_SIZE = 6048 ∧
    (reorder_for_dma KERNEL_SIZE NUM_PATCHES WINDOW_SIZE sampleCols freshBuffer).data
        (NUM_PATCHES / WINDOW_SIZE * KERNEL_SIZE * KERNEL_SIZE * WINDOW_SIZE
          + 4 * WINDOW_SIZE + 3)
      = sampleCols 4 (NUM_PATCHES / WINDOW_SIZE * WINDOW_SIZE + 3) :=
  ⟨by decide, by decide, by decide, by decide,
    C3_reorder_remainder KERNEL_SIZE NUM_PATCHES WINDOW_SIZE (by decide) sampleCols
      freshBuffer 4 3 (by decide) (by decide)⟩

/-- C4 (fails on the code): at the reference configuration the remainder pass
of `reorder_for_dma` stores beyond the `tx_bytes = 6084` bytes of `tx_u8`.
Whatever the patch matrix and the buffer, the store of kernel row 5, remainder
column 0 goes to index `6048 + 5*8 + 0 = 6088`, and that of kernel row 8,
column 3 to index `6115`. -/
theorem C4_reorder_stores_past_tx_u8 (cols : Matrix) (buffer : Buffer) :
    6088 ∈ (reorder_for_dma KERNEL_SIZE NUM_PATCHES WINDOW_SIZE cols buffer).stores ∧
    6115 ∈ (reorder_for_dma KERNEL_SIZE NUM_PATCHES WINDOW_SIZE cols buffer).stores ∧
    tx_bytes = 6084 ∧ ¬ (6088 < tx_bytes) ∧ ¬ (6115 < tx_bytes) := by
  have hwin : NUM_PATCHES / WINDOW_SIZE = 84 := by decide
  have hrem : NUM_PATCHES % WINDOW_SIZE = 4 := by decide
  have hK : KERNEL_SIZE = 3 := rfl
  have hWB : WINDOW_SIZE = 8 := rfl
  have h1 : (6088, cols 5 (84 * 8 + 0)) ∈ reorderRemWrites 3 84 4 8 cols :=
    (mem_reorderRemWrites 3 84 4 8 cols _).2 ⟨5, by decide, 0, by decide, rfl⟩
  have h2 : (6115, cols 8 (84 * 8 + 3)) ∈ reorderRemWrites 3 84 4 8 cols :=
    (mem_reorderRemWrites 3 84 4 8 cols _).2 ⟨8, by decide, 3, by decide, rfl⟩
  rw [reorder_eq_writes, stores_applyWrites, hwin, hrem, hK, hWB]
  refine ⟨?_, ?_, by decide, by decide, by decide⟩
  · apply List.mem_append_left
    rw [List.mem_reverse, List.map_append, List.mem_append]
    exact Or.inr (List.mem_map_of_mem Prod.fst h1)
  · apply List.mem_append_left
    rw [List.mem_reverse, List.map_append, List.mem_append]
    exact Or.inr (List.mem_map_of_mem Prod.fst h2)


/-! ## `pack_u8_to_u32` -/

/-- A little-endian word of four bytes is the base-256 number they spell. -/
theorem leWord_eq_add (b0 b1 b2 b3 : Nat) (h0 : b0 < 256) (h1 : b1 < 256)
    (h2 : b2 < 256) :
    leWord b0 b1 b2 b3 = b0 + 256 * b1 + 65536 * b2 + 16777216 * b3 := by
  unfold leWord
  have e1 : b0 ||| b1 <<< 8 = b0 + 256 * b1 := by
    rw [Nat.or_comm, Nat.shiftLeft_eq, Nat.mul_comm b1]
    have := Nat.mul_add_lt_is_or (i := 8) (b := b0) (by omega) b1
    omega
  have e2 : b0 + 256 * b1 ||| b2 <<< 16 = b0 + 256 * b1 + 65536 * b2 := by
    rw [Nat.or_comm, Nat.shiftLeft_eq, Nat.mul_comm b2]
    have := Nat.mul_add_lt_is_or (i := 16) (b := b0 + 256 * b1) (by omega) b2
    omega
  have e3 : b0 + 256 * b1 + 65536 * b2 ||| b3 <<< 24
      = b0 + 256 * b1 + 65536 * b2 + 16777216 * b3 := by
    rw [Nat.or_comm, Nat.shiftLeft_eq, Nat.mul_comm b3]
    have := Nat.mul_add_lt_is_or (i := 24) (b := b0 + 256 * b1 + 65536 * b2) (by omega) b3
    omega
  rw [e1, e2, e3]


theorem byteOrZero_lt (src : Nat → U8) (n j : Nat) : byteOrZero src n j < 256 := by
  unfold byteOrZero
  split
  · exact (src j).isLt
  · decide

theorem byteOrZero_of_lt (src : Nat → U8) (n j : Nat) (h : j < n) :
    byteOrZero src n j = (src j).val := by
  simp [byteOrZero, h]

theorem byteOrZero_of_ge (src : Nat → U8) (n j : Nat) (h : n ≤ j) :
    byteOrZero src n j = 0 := by
  simp [byteOrZero, Nat.not_lt.2 h]

/-- A word assembled from bytes fits in a `u32`. -/
theorem packedWord_lt (src : Nat → U8) (m w : Nat) : packedWord src m w < 2 ^ 32 := by
  unfold packedWord
  have h0 := byteOrZero_lt src m (4 * w)
  have h1 := byteOrZero_lt src m (4 * w + 1)
  have h2 := byteOrZero_lt src m (4 * w + 2)
  have h3 := byteOrZero_lt src m (4 * w + 3)
  rw [leWord_eq_add _ _ _ _ h0 h1 h2]
  omega

/-- Or-ing a shifted byte into a `u32` does not overflow. -/
theorem or_shift_mod (a b k : Nat) (ha : a < 2 ^ 32) (hb : b < 256) (hk : k ≤ 24) :
    (a ||| (b <<< k) % 2 ^ 32) % 2 ^ 32 = a ||| b <<< k := by
  have hs : b <<< k < 2 ^ 32 := by
    rw [Nat.shiftLeft_eq]
    have h1 : 2 ^ k ≤ 2 ^ 24 := Nat.pow_le_pow_right (by decide) hk
    calc b * 2 ^ k ≤ 255 * 2 ^ 24 := Nat.mul_le_mul (by omega) h1
      _ < 2 ^ 32 := by decide
  rw [Nat.mod_eq_of_lt hs, Nat.mod_eq_of_lt (Nat.or_lt_two_pow ha hs)]

/-- Consuming byte `m` changes the word `m / 4` only, by or-ing the byte in at
lane `m % 4`. -/
theorem packedWord_succ (src : Nat → U8) (m w : Nat) :
    packedWord src (m + 1) w
      = if w = m / 4 then packedWord src m w ||| (src m).val <<< (8 * (m % 4))
        else packedWord src m w := by
  have hm : m = 4 * (m / 4) + m % 4 := (Nat.div_add_mod m 4).symm
  have hr : m % 4 < 4 := Nat.mod_lt _ (by decide)
  split
  · rename_i hw
    subst hw
    generalize m / 4 = q at hm
    generalize m % 4 = r at hm hr
    subst hm
    interval_cases r <;> simp only [packedWord] <;>
      simp (disch := omega) only [byteOrZero_of_lt, byteOrZero_of_ge] <;>
      simp [leWord]
  · rename_i hw
    have h0 : 4 * w ≠ m := by omega
    have h1 : 4 * w + 1 ≠ m := by omega
    have h2 : 4 * w + 2 ≠ m := by omega
    have h3 : 4 * w + 3 ≠ m := by omega
    have e : ∀ j, j ≠ m → byteOrZero src (m + 1) j = byteOrZero src m j := by
      intro j hj
      unfold byteOrZero
      by_cases h : j < m
      · rw [if_pos h, if_pos (by omega)]
      · rw [if_neg h, if_neg (by omega)]
    unfold packedWord
    rw [e _ h0, e _ h1, e _ h2, e _ h3]


/-- The first loop of `pack_u8_to_u32` zeroes the words `0, ..., nw-1`. -/
theorem zero_loop (nw : Nat) (dst : Nat → Nat) :
    forLoop nw (fun i d => Function.update d i 0) dst
      = fun w => if w < nw then 0 else dst w := by
  induction nw with
  | zero => simp [forLoop_zero]
  | succ nw ih =>
    rw [forLoop_succ, ih]
    funext w
    by_cases h : w = nw
    · subst h
      simp
    · rw [Function.update_noteq h]
      by_cases h' : w < nw
      · rw [if_pos h', if_pos (by omega)]
      · rw [if_neg h', if_neg (by omega)]

/-- The second loop of `pack_u8_to_u32`, started on zeroed words, has
assembled `packedWord src m` after `m` bytes. -/
theorem pack_loop (src : Nat → U8) (d0 : Nat → Nat) (n : Nat)
    (hz : ∀ w, w < (n + 3) / 4 → d0 w = 0) (m : Nat) (hm : m ≤ n) :
    forLoop m (fun i d => Function.update d (i / 4)
        ((d (i / 4) ||| (((src i).val <<< (8 * (i % 4))) % 2 ^ 32)) % 2 ^ 32)) d0
      = fun w => if w < (n + 3) / 4 then packedWord src m w else d0 w := by
  induction m with
  | zero =>
    rw [forLoop_zero]
    funext w
    split
    · rename_i h
      rw [hz w h]
      simp [packedWord, byteOrZero, leWord]
    · rfl
  | succ m ih =>
    rw [forLoop_succ, ih (by omega)]
    have hq : m / 4 < (n + 3) / 4 := by omega
    have hr : 8 * (m % 4) ≤ 24 := by omega
    funext w
    rw [packedWord_succ]
    by_cases h : w = m / 4
    · subst h
      simp only [Function.update_same, if_pos hq, if_true]
      exact or_shift_mod _ _ _ (packedWord_lt src m _) (src m).isLt hr
    · rw [Function.update_noteq h, if_neg h]

/-- As long as `bytes + 3` does not exceed `INT_MAX`, the first loop of
`pack_u8_to_u32` runs `(bytes + 3) / 4` times. -/
theorem tdiv_toNat (n : Nat) (hn : (n : Int) ≤ INT_MAX - 3) :
    (Int.tdiv (wrapInt32 ((n : Int) + 3)) 4).toNat = (n + 3) / 4 := by
  have hw : wrapInt32 ((n : Int) + 3) = (n : Int) + 3 := by
    unfold wrapInt32
    unfold INT_MAX at hn
    omega
  rw [hw, Int.tdiv_eq_ediv (by omega) (by decide)]
  omega

/-- The result of `pack_u8_to_u32` for a byte count `0 ≤ n ≤ INT_MAX - 3`. -/
theorem pack_eq (src : Nat → U8) (dst : Nat → Nat) (n : Nat)
    (hn : (n : Int) ≤ INT_MAX - 3) :
    pack_u8_to_u32 src dst (n : Int)
      = fun w => if w < (n + 3) / 4 then packedWord src n w else dst w := by
  unfold pack_u8_to_u32
  simp only [tdiv_toNat n hn, Int.toNat_ofNat, zero_loop]
  rw [pack_loop src _ n (fun w hw => by simp [hw]) n (Nat.le_refl n)]
  funext w
  split
  · rfl
  · rename_i h
    simp [h]


/-- The second loop of `pack_u8_to_u32`, started on any `u32` words, ors the
assembled words into them. -/
theorem pack_loop_or (src : Nat → U8) (d0 : Nat → Nat) (hd : ∀ w, d0 w < 2 ^ 32)
    (m : Nat) :
    forLoop m (fun i d => Function.update d (i / 4)
        ((d (i / 4) ||| (((src i).val <<< (8 * (i % 4))) % 2 ^ 32)) % 2 ^ 32)) d0
      = fun w => d0 w ||| packedWord src m w := by
  induction m with
  | zero =>
    rw [forLoop_zero]
    funext w
    simp [packedWord, byteOrZero, leWord]
  | succ m ih =>
    rw [forLoop_succ, ih]
    have hr : 8 * (m % 4) ≤ 24 := by omega
    funext w
    rw [packedWord_succ]
    by_cases h : w = m / 4
    · subst h
      simp only [Function.update_same, if_true]
      rw [or_shift_mod _ _ _ (Nat.or_lt_two_pow (hd _) (packedWord_lt src m _))
        (src m).isLt hr, Nat.or_assoc]
    · rw [Function.update_noteq h, if_neg h]

/-- At `bytes = INT_MAX` the sum `bytes + 3` wraps to a negative `int`, the
first loop of `pack_u8_to_u32` zeroes nothing, and the bytes are or-ed into
the prior contents of `dst`. -/
theorem pack_at_int_max (src : Nat → U8) (dst : Nat → Nat) (hd : ∀ w, dst w < 2 ^ 32) :
    pack_u8_to_u32 src dst INT_MAX = fun w => dst w ||| packedWord src 2147483647 w := by
  have h1 : (Int.tdiv (wrapInt32 (INT_MAX + 3)) 4).toNat = 0 := by decide
  have h2 : INT_MAX.toNat = 2147483647 := by decide
  unfold pack_u8_to_u32
  simp only [h1, h2, forLoop_zero]
  exact pack_loop_or src dst hd 2147483647

/-- Byte lane `j % 4` of the assembled word `j / 4` is the byte `b(j)`. -/
theorem unpack_packedWord (src : Nat → U8) (n j : Nat) :
    (packedWord src n (j / 4) >>> (8 * (j % 4))) &&& 0xFF = byteOrZero src n j := by
  have hj : 4 * (j / 4) + j % 4 = j := Nat.div_add_mod j 4
  have hr : j % 4 < 4 := Nat.mod_lt _ (by decide)
  have h0 := byteOrZero_lt src n (4 * (j / 4))
  have h1 := byteOrZero_lt src n (4 * (j / 4) + 1)
  have h2 := byteOrZero_lt src n (4 * (j / 4) + 2)
  have h3 := byteOrZero_lt src n (4 * (j / 4) + 3)
  have hb : byteOrZero src n j = byteOrZero src n (4 * (j / 4) + j % 4) := by rw [hj]
  rw [hb]
  unfold packedWord
  rw [leWord_eq_add _ _ _ _ h0 h1 h2, Nat.shiftRight_eq_div_pow]
  show _ &&& (2 ^ 8 - 1) = _
  rw [Nat.and_pow_two_sub_one_eq_mod]
  generalize j % 4 = r at hr
  generalize j / 4 = q at h0 h1 h2 h3
  interval_cases r
  · show (_ + 16777216 * _) / 1 % 256 = byteOrZero src n (4 * q)
    rw [Nat.div_one]
    omega
  · show (_ + 16777216 * _) / 256 % 256 = _
    omega
  · show (_ + 16777216 * _) / 65536 % 256 = _
    omega
  · show (_ + 16777216 * _) / 16777216 % 256 = _
    omega


/-- C5 as stated fails at `bytes = INT_MAX`: the `int` sum `bytes + 3` wraps to
a negative value, no word is zeroed, and over a destination full of ones word
0 is `0xFFFFFFFF` after the call although the bytes are all zero, for which
the claim gives the word 0. -/
theorem C5_int_max_keeps_prior_dst :
    INT_MAX = ((2147483647 : Nat) : Int) ∧ 0 < (2147483647 + 3) / 4 ∧
    pack_u8_to_u32 (fun _ => 0) (fun _ => 0xFFFFFFFF) INT_MAX 0 = 0xFFFFFFFF ∧
    (byteOrZero (fun _ => 0) 2147483647 (4 * 0)
      ||| byteOrZero (fun _ => 0) 2147483647 (4 * 0 + 1) <<< 8
      ||| byteOrZero (fun _ => 0) 2147483647 (4 * 0 + 2) <<< 16
      ||| byteOrZero (fun _ => 0) 2147483647 (4 * 0 + 3) <<< 24) = 0 ∧
    pack_u8_to_u32 (fun _ => 0) (fun _ => 0xFFFFFFFF) INT_MAX 0
      ≠ pack_u8_to_u32 (fun _ => 0) (fun _ => 0) INT_MAX 0 := by
  have hz : packedWord (fun _ => 0) 2147483647 0 = 0 := by
    simp [packedWord, byteOrZero, leWord]
  have h1 : pack_u8_to_u32 (fun _ => 0) (fun _ => 0xFFFFFFFF) INT_MAX 0 = 0xFFFFFFFF := by
    rw [pack_at_int_max _ _ (fun _ => by decide)]
    simp only [hz]
    decide
  have h2 : pack_u8_to_u32 (fun _ => 0) (fun _ => 0) INT_MAX 0 = 0 := by
    rw [pack_at_int_max _ _ (fun _ => by decide)]
    simp only [hz]
    decide
  refine ⟨by decide, by decide, h1, ?_, ?_⟩
  · simp [byteOrZero]
  · rw [h1, h2]
    decide

/-- C5, amended: for byte counts up to `INT_MAX - 3`, `pack_u8_to_u32` produces
exactly `ceil(bytes/4) = (bytes+3)/4` little-endian words that do not depend
on the prior contents of `dst`.  For every `src`, every byte count `n` with
`0 ≤ n ≤ INT_MAX - 3`, every initial `dst` and every index `i`: if
`i < (n+3)/4` then after the call
`dst[i] = b(4i) | b(4i+1)<<8 | b(4i+2)<<16 | b(4i+3)<<24`, where `b(j)` is
`src[j]` for `j < n` and `0` otherwise; and if `i ≥ (n+3)/4` then `dst[i]` is
what it was before the call. -/
theorem C5_pack_little_endian (src : Nat → U8) (dst : Nat → Nat) (n i : Nat)
    (hn : (n : Int) ≤ INT_MAX - 3) :
    (i < (n + 3) / 4 →
      pack_u8_to_u32 src dst (n : Int) i
        = byteOrZero src n (4 * i) ||| byteOrZero src n (4 * i + 1) <<< 8
            ||| byteOrZero src n (4 * i + 2) <<< 16
            ||| byteOrZero src n (4 * i + 3) <<< 24) ∧
    ((n + 3) / 4 ≤ i → pack_u8_to_u32 src dst (n : Int) i = dst i) := by
  rw [pack_eq _ _ _ hn]
  constructor
  · intro h
    simp only [if_pos h]
    rfl
  · intro h
    simp only [if_neg (Nat.not_lt.2 h)]

/-- C5, amended, on the three bytes `1, 2, 3` over a destination full of ones:
word 0 is assembled from the bytes and zero padding, word 1 is left as it
was. -/
theorem C5_pack_little_endian_witness :
    ((3 : Nat) : Int) ≤ INT_MAX - 3 ∧
    (0 < (3 + 3) / 4 ∧
      pack_u8_to_u32 sampleBytes (fun _ => 0xFFFFFFFF) ((3 : Nat) : Int) 0
        = byteOrZero sampleBytes 3 (4 * 0) ||| byteOrZero sampleBytes 3 (4 * 0 + 1) <<< 8
            ||| byteOrZero sampleBytes 3 (4 * 0 + 2) <<< 16
            ||| byteOrZero sampleBytes 3 (4 * 0 + 3) <<< 24) ∧
    ((3 + 3) / 4 ≤ 1 ∧
      pack_u8_to_u32 sampleBytes (fun _ => 0xFFFFFFFF) ((3 : Nat) : Int) 1 = 0xFFFFFFFF) :=
  ⟨by decide,
    ⟨by decide,
      (C5_pack_little_endian sampleBytes (fun _ => 0xFFFFFFFF) 3 0 (by decide)).1 (by decide)⟩,
    ⟨by decide,
      (C5_pack_little_endian sampleBytes (fun _ => 0xFFFFFFFF) 3 1 (by decide)).2 (by decide)⟩⟩

/-- C6 as stated fails for a byte sequence of length `INT_MAX`: the `int` sum
`bytes + 3` wraps, no word is zeroed, and over a destination full of ones
lane 0 unpacks to `0xFF` although `src[0]` is 0. -/
theorem C6_int_max_unpack_differs :
    INT_MAX = ((2147483647 : Nat) : Int) ∧ 0 < 2147483647 ∧
    unpackByte (pack_u8_to_u32 (fun _ => 0) (fun _ => 0xFFFFFFFF) INT_MAX) 0 = 0xFF ∧
    ((fun _ => 0 : Nat → U8) 0).val = 0 ∧
    unpackByte (pack_u8_to_u32 (fun _ => 0) (fun _ => 0xFFFFFFFF) INT_MAX) 0
      ≠ ((fun _ => 0 : Nat → U8) 0).val := by
  have hz : packedWord (fun _ => 0) 2147483647 0 = 0 := by
    simp [packedWord, byteOrZero, leWord]
  have h1 : unpackByte (pack_u8_to_u32 (fun _ => 0) (fun _ => 0xFFFFFFFF) INT_MAX) 0
      = 0xFF := by
    rw [pack_at_int_max _ _ (fun _ => by decide)]
    unfold unpackByte
    simp only [hz]
    decide
  refine ⟨by decide, by decide, h1, rfl, ?_⟩
  rw [h1]
  decide

/-- C6, amended: for lengths up to `INT_MAX - 3`, unpacking undoes
`pack_u8_to_u32`.  For every byte sequence `src` of length `n` with
`0 ≤ n ≤ INT_MAX - 3`, every prior `dst` and every `j`: if `j < n` then byte
lane `j` of the packed words, `(dst[j/4] >> (8*(j mod 4))) & 0xFF`, is
`src[j]`; and if `n ≤ j < 4 * ((n+3)/4)`, that is `j` is a lane of the last
word at or beyond the length, the lane is zero. -/
theorem C6_unpack_pack (src : Nat → U8) (dst : Nat → Nat) (n j : Nat)
    (hn : (n : Int) ≤ INT_MAX - 3) :
    (j < n → unpackByte (pack_u8_to_u32 src dst (n : Int)) j = (src j).val) ∧
    (n ≤ j → j < 4 * ((n + 3) / 4) →
      unpackByte (pack_u8_to_u32 src dst (n : Int)) j = 0) := by
  rw [pack_eq _ _ _ hn]
  unfold unpackByte
  constructor
  · intro h
    have hq : j / 4 < (n + 3) / 4 := by omega
    simp only [if_pos hq]
    rw [unpack_packedWord, byteOrZero_of_lt _ _ _ h]
  · intro h h'
    have hq : j / 4 < (n + 3) / 4 := by omega
    simp only [if_pos hq]
    rw [unpack_packedWord, byteOrZero_of_ge _ _ _ h]

/-- C6, amended, on the three bytes `1, 2, 3`: they pack to the single word
`0x00030201`, lane 2 unpacks to `3` and the padding lane 3 to zero. -/
theorem C6_unpack_pack_witness :
    ((3 : Nat) : Int) ≤ INT_MAX - 3 ∧
    pack_u8_to_u32 sampleBytes (fun _ => 0xFFFFFFFF) ((3 : Nat) : Int) 0 = 0x00030201 ∧
    (2 < 3 ∧
      unpackByte (pack_u8_to_u32 sampleBytes (fun _ => 0xFFFFFFFF) ((3 : Nat) : Int)) 2
        = (sampleBytes 2).val) ∧
    (3 ≤ 3 ∧ 3 < 4 * ((3 + 3) / 4) ∧
      unpackByte (pack_u8_to_u32 sampleBytes (fun _ => 0xFFFFFFFF) ((3 : Nat) : Int)) 3 = 0) :=
  ⟨by decide, by decide,
    ⟨by decide,
      (C6_unpack_pack sampleBytes (fun _ => 0xFFFFFFFF) 3 2 (by decide)).1 (by decide)⟩,
    ⟨by decide, by decide,
      (C6_unpack_pack sampleBytes (fun _ => 0xFFFFFFFF) 3 3 (by decide)).2 (by decide)
        (by decide)⟩⟩


/-! ## Interrupt handlers and the wait loop -/

/-- C7: starting from the reset flag state, one normal-completion notification
(IOC bit set, error bit clear) to `TxIntrHandler` and one to `RxIntrHandler`,
in either order, leave flags on which the wait loop of `main` exits on the
success path; after only one of the two the loop is still pending. -/
theorem C7_both_ok_completes (m : IrqMasks) (st sr : Nat)
    (htIoc : st &&& m.XAXIDMA_IRQ_IOC_MASK ≠ 0) (htErr : st &&& m.XAXIDMA_IRQ_ERROR_MASK = 0)
    (hrIoc : sr &&& m.XAXIDMA_IRQ_IOC_MASK ≠ 0) (hrErr : sr &&& m.XAXIDMA_IRQ_ERROR_MASK = 0) :
    poll (RxIntrHandler m sr (TxIntrHandler m st resetFlags)) = Verdict.Completed ∧
    poll (TxIntrHandler m st (RxIntrHandler m sr resetFlags)) = Verdict.Completed ∧
    poll (TxIntrHandler m st resetFlags) = Verdict.Pending ∧
    poll (RxIntrHandler m sr resetFlags) = Verdict.Pending := by
  simp [poll, TxIntrHandler, RxIntrHandler, resetFlags, htIoc, htErr, hrIoc, hrErr]

/-- C7 with the masks of the Xilinx driver and the status `0x1000` (IOC only)
in both directions. -/
theorem C7_both_ok_completes_witness :
    poll (RxIntrHandler xilinxMasks 0x1000 (TxIntrHandler xilinxMasks 0x1000 resetFlags))
      = Verdict.Completed ∧
    poll (TxIntrHandler xilinxMasks 0x1000 (RxIntrHandler xilinxMasks 0x1000 resetFlags))
      = Verdict.Completed ∧
    poll (TxIntrHandler xilinxMasks 0x1000 resetFlags) = Verdict.Pending ∧
    poll (RxIntrHandler xilinxMasks 0x1000 resetFlags) = Verdict.Pending :=
  C7_both_ok_completes xilinxMasks 0x1000 0x1000 (by decide) (by decide) (by decide)
    (by decide)

/-- There are two directions, so at most two notifications when each direction
notifies at most once. -/
theorem length_le_two_of_nodup (ds : List Direction) (h : ds.Nodup) : ds.length ≤ 2 := by
  match ds, h with
  | [], _ => simp
  | [_], _ => simp
  | [_, _], _ => simp
  | a :: b :: c :: t, h =>
    exfalso
    cases a <;> cases b <;> cases c <;> simp at h


/-- Once the notifications delivered so far, at most one per direction,
include one with the error bit, a poll of the wait loop reports `Failed`. -/
theorem poll_failed_of_error (m : IrqMasks) (ns : List Notification)
    (hnd : (ns.map Prod.fst).Nodup) (herr : ∃ n ∈ ns, isError m n = true) :
    poll (deliverAll m ns resetFlags) = Verdict.Failed := by
  have hlen := length_le_two_of_nodup _ hnd
  match ns, hnd, herr, hlen with
  | [], _, herr, _ => simp at herr
  | [(d, s)], _, herr, _ =>
    simp only [List.mem_singleton, exists_eq_left, isError, bne_iff_ne] at herr
    cases d <;>
      simp [deliverAll, deliver, TxIntrHandler, RxIntrHandler, poll, resetFlags, herr]
  | [(d1, s1), (d2, s2)], hnd, herr, _ =>
    simp only [List.mem_cons, List.mem_singleton, exists_eq_or_imp, exists_eq_left, isError,
      bne_iff_ne, List.not_mem_nil, false_and, exists_false, or_false] at herr
    cases d1 <;> cases d2 <;> simp at hnd <;>
      by_cases h1 : s1 &&& m.XAXIDMA_IRQ_ERROR_MASK = 0 <;>
      by_cases h2 : s2 &&& m.XAXIDMA_IRQ_ERROR_MASK = 0 <;>
      by_cases h3 : s1 &&& m.XAXIDMA_IRQ_IOC_MASK = 0 <;>
      by_cases h4 : s2 &&& m.XAXIDMA_IRQ_IOC_MASK = 0 <;>
      simp_all [deliverAll, deliver, TxIntrHandler, RxIntrHandler, poll, resetFlags]
  | _ :: _ :: _ :: _, _, _, hlen => simp at hlen


/-- C8: an error notification is fatal to the run and is never flipped back.
For every sequence `pre ++ post` of notifications delivered after the flags
are reset, at most one per direction: as soon as the part `pre` delivered so
far contains a notification with the error bit, a poll of the wait loop of
`main` reports `Failed` (it returns `XST_FAILURE`) and not `Completed`,
whatever the other notifications are. -/
theorem C8_error_is_fatal (m : IrqMasks) (pre post : List Notification)
    (hnd : ((pre ++ post).map Prod.fst).Nodup) (herr : ∃ n ∈ pre, isError m n = true) :
    poll (deliverAll m pre resetFlags) = Verdict.Failed ∧
    poll (deliverAll m pre resetFlags) ≠ Verdict.Completed := by
  have hpre : (pre.map Prod.fst).Nodup := by
    rw [List.map_append] at hnd
    exact (List.nodup_append.1 hnd).1
  have h := poll_failed_of_error m pre hpre herr
  rw [h]
  exact ⟨rfl, by decide⟩

/-- C8 with the masks of the Xilinx driver: an outbound error (`0x4000`)
followed by an inbound normal completion (`0x1000`), polled after the first
and after both. -/
theorem C8_error_is_fatal_witness :
    (poll (deliverAll xilinxMasks [(Direction.tx, 0x4000)] resetFlags) = Verdict.Failed ∧
      poll (deliverAll xilinxMasks [(Direction.tx, 0x4000)] resetFlags)
        ≠ Verdict.Completed) ∧
    (poll (deliverAll xilinxMasks [(Direction.tx, 0x4000), (Direction.rx, 0x1000)]
        resetFlags) = Verdict.Failed ∧
      poll (deliverAll xilinxMasks [(Direction.tx, 0x4000), (Direction.rx, 0x1000)]
        resetFlags) ≠ Verdict.Completed) :=
  ⟨C8_error_is_fatal xilinxMasks [(Direction.tx, 0x4000)] [(Direction.rx, 0x1000)]
      (by decide) ⟨(Direction.tx, 0x4000), by simp, by decide⟩,
    C8_error_is_fatal xilinxMasks [(Direction.tx, 0x4000), (Direction.rx, 0x1000)] []
      (by decide) ⟨(Direction.tx, 0x4000), by simp, by decide⟩⟩

/-- Every notification with the error bit makes its handler call
`XAxiDma_Reset` once; the others make no call. -/
theorem resets_deliverAll (m : IrqMasks) (ns : List Notification) (s : Flags) :
    (deliverAll m ns s).resets = s.resets + ns.countP (isError m) := by
  induction ns generalizing s with
  | nil => simp [deliverAll]
  | cons n ns ih =>
    have hstep : (deliver m n s).resets = s.resets + (if isError m n = true then 1 else 0) := by
      obtain ⟨d, st⟩ := n
      cases d <;>
        by_cases h1 : st &&& m.XAXIDMA_IRQ_ERROR_MASK = 0 <;>
        by_cases h2 : st &&& m.XAXIDMA_IRQ_IOC_MASK = 0 <;>
        simp [deliver, TxIntrHandler, RxIntrHandler, isError, h1, h2]
    show (deliverAll m ns (deliver m n s)).resets = _
    rw [ih, hstep, List.countP_cons]
    omega

/-- C9 as stated fails: when both directions report an error (status
`0x4000` with the masks of the Xilinx driver), one notification per direction,
each handler calls `XAxiDma_Reset`, two calls in all. -/
theorem C9_two_errors_two_resets :
    ([(Direction.tx, 0x4000), (Direction.rx, 0x4000)].map Prod.fst).Nodup ∧
    (∃ n ∈ [(Direction.tx, 0x4000), (Direction.rx, 0x4000)], isError xilinxMasks n = true) ∧
    (deliverAll xilinxMasks [(Direction.tx, 0x4000), (Direction.rx, 0x4000)]
      resetFlags).resets = 2 ∧
    (RxIntrHandler xilinxMasks 0x4000 (TxIntrHandler xilinxMasks 0x4000 resetFlags)).resets
      ≠ 1 :=
  ⟨by decide, ⟨(Direction.tx, 0x4000), by simp, by decide⟩, by decide, by decide⟩

/-- C9, amended: for every sequence of notifications with at most one per
direction that contains an error notification, the number of `XAxiDma_Reset`
calls made by `TxIntrHandler` and `RxIntrHandler` over the whole sequence is
the number of notifications that carry the error bit; it is 1 or 2, and
exactly 1 when exactly one notification carries the error bit. -/
theorem C9_one_reset_per_error (m : IrqMasks) (ns : List Notification)
    (hnd : (ns.map Prod.fst).Nodup) (herr : ∃ n ∈ ns, isError m n = true) :
    (deliverAll m ns resetFlags).resets = ns.countP (isError m) ∧
    1 ≤ (deliverAll m ns resetFlags).resets ∧
    (deliverAll m ns resetFlags).resets ≤ 2 ∧
    (ns.countP (isError m) = 1 → (deliverAll m ns resetFlags).resets = 1) := by
  have h : (deliverAll m ns resetFlags).resets = ns.countP (isError m) := by
    rw [resets_deliverAll]
    simp [resetFlags]
  have hpos : 0 < ns.countP (isError m) := List.countP_pos_iff.2 herr
  have hle : ns.countP (isError m) ≤ ns.length := List.countP_le_length _
  have hlen := length_le_two_of_nodup _ hnd
  rw [List.length_map] at hlen
  rw [h]
  exact ⟨rfl, hpos, by omega, fun h1 => h1⟩

/-- C9, amended, with the masks of the Xilinx driver: an inbound error
followed by an outbound normal completion makes one reset. -/
theorem C9_one_reset_per_error_witness :
    (deliverAll xilinxMasks [(Direction.rx, 0x4000), (Direction.tx, 0x1000)]
      resetFlags).resets = 1 :=
  (C9_one_reset_per_error xilinxMasks [(Direction.rx, 0x4000), (Direction.tx, 0x1000)]
    (by decide) ⟨(Direction.rx, 0x4000), by simp, by decide⟩).2.2.2 (by decide)

/-- C10: for the configured constants (`IMAGE_WIDTH = IMAGE_HEIGHT = 28`,
`KERNEL_SIZE = 3`, `WINDOW_SIZE = 8`) the derived sizes are
`NUM_PATCHES = 676`, `tx_bytes = 6084`, `tx_words = 1521` (so that the
outbound length `tx_words*4` is exactly `tx_bytes`), and in `reorder_for_dma`
`win = NUM_PATCHES / WINDOW_SIZE = 84` and `rem = NUM_PATCHES % WINDOW_SIZE = 4`. -/
theorem C10_derived_sizes :
    IMAGE_WIDTH = 28 ∧ IMAGE_HEIGHT = 28 ∧ KERNEL_SIZE = 3 ∧ WINDOW_SIZE = 8 ∧
    numPatches IMAGE_WIDTH IMAGE_HEIGHT KERNEL_SIZE = 676 ∧ NUM_PATCHES = 676 ∧
    tx_bytes = 6084 ∧ tx_words = 1521 ∧ tx_words * 4 = tx_bytes ∧
    NUM_PATCHES / WINDOW_SIZE = 84 ∧ NUM_PATCHES % WINDOW_SIZE = 4 := by
  decide


/-! ## `reorder_for_dma`: what is left untouched, and the index map -/

/-- An index that is the destination of no column, full window or remainder,
holds after `reorder_for_dma` what it held before. -/
theorem reorder_frame (K P WB : Nat) (cols : Matrix) (buffer : Buffer) (i : Nat)
    (h : ∀ w k o, k < K * K → ((w < P / WB ∧ o < WB) ∨ (w = P / WB ∧ o < P % WB)) →
      i ≠ w * K * K * WB + k * WB + o) :
    (reorder_for_dma K P WB cols buffer).data i = buffer.data i := by
  rw [reorder_eq_writes]
  apply applyWrites_frame Buffer.data Buffer.store Buffer.data_store
  intro e he
  rw [List.mem_append, mem_reorderFullWrites, mem_reorderRemWrites] at he
  rcases he with ⟨w, hw, k, hk, p, hp, rfl⟩ | ⟨k, hk, p, hp, rfl⟩
  · exact fun heq => h w k p hk (Or.inl ⟨hw, hp⟩) heq.symm
  · exact fun heq => h (P / WB) k p hk (Or.inr ⟨rfl, hp⟩) heq.symm

/-- C11: `reorder_for_dma` leaves every buffer position it is not specified
to write unchanged.  For every initial buffer, an index that is not of the
form `w*K*K*WB + k*WB + o` with `k < K*K` and either `w < win`, `o < WB` or
`w = win`, `o < rem` (`win = P / WB`, `rem = P % WB`) holds the same value
after the call as before; in particular the slots `o` in `[rem, WB)` of each
kernel row of the final partial window keep their prior contents. -/
theorem C11_reorder_frame (K P WB : Nat) (cols : Matrix) (buffer : Buffer) :
    (∀ i : Nat,
      (∀ w k o, k < K * K → ((w < P / WB ∧ o < WB) ∨ (w = P / WB ∧ o < P % WB)) →
        i ≠ w * K * K * WB + k * WB + o) →
      (reorder_for_dma K P WB cols buffer).data i = buffer.data i) ∧
    (∀ k o : Nat, k < K * K → P % WB ≤ o → o < WB →
      (reorder_for_dma K P WB cols buffer).data (P / WB * K * K * WB + k * WB + o)
        = buffer.data (P / WB * K * K * WB + k * WB + o)) := by
  refine ⟨fun i h => reorder_frame K P WB cols buffer i h, ?_⟩
  intro k o hk hrem ho
  apply reorder_frame
  intro w k' o' hk' hw heq
  have ho' : o' < WB := by
    rcases hw with ⟨_, h⟩ | ⟨_, h⟩
    · exact h
    · exact Nat.lt_trans h (Nat.mod_lt _ (by omega))
  obtain ⟨h1, _, h3⟩ := reorder_index_inj K WB (P / WB) k o w k' o' hk hk' ho ho' heq
  rcases hw with ⟨h, _⟩ | ⟨_, h⟩
  · omega
  · omega

/-- C11 at `K = 3`, `P = 9`, `WB = 8` on a buffer full of `0xAA`: slot 1 of
kernel row 0 of the partial window (index 73) is beyond the remainder of one
column and still holds `0xAA` after the call. -/
theorem C11_reorder_frame_witness :
    0 < 3 * 3 ∧ 9 % 8 ≤ 1 ∧ 1 < 8 ∧
    (reorder_for_dma 3 9 8 sampleCols freshBuffer).data (9 / 8 * 3 * 3 * 8 + 0 * 8 + 1)
      = freshBuffer.data (9 / 8 * 3 * 3 * 8 + 0 * 8 + 1) ∧
    (reorder_for_dma 3 9 8 sampleCols freshBuffer).data 141 = freshBuffer.data 141 :=
  ⟨by decide, by decide, by decide,
    (C11_reorder_frame 3 9 8 sampleCols freshBuffer).2 0 1 (by decide) (by decide) (by decide),
    (C11_reorder_frame 3 9 8 sampleCols freshBuffer).1 141 (by
      intro w k o hk hw
      have h1 : 9 / 8 = 1 := by decide
      have h2 : 9 % 8 = 1 := by decide
      rw [h1, h2] at hw
      omega)⟩


/-! ## `main`: the receive loop and the scatter-gather check -/

/-- The offsets stored to by one receive call are those of the bytes
delivered, from `off` upwards. -/
theorem mem_stores_storeBytes (cs : List U8) (b : Buffer) (off i : Nat) :
    i ∈ (storeBytes b off cs).stores ↔ i ∈ b.stores ∨ (off ≤ i ∧ i < off + cs.length) := by
  induction cs generalizing b off with
  | nil => simp [storeBytes]
  | cons c cs ih =>
    simp only [storeBytes, ih, Buffer.store, List.mem_cons, List.length_cons]
    constructor
    · rintro ((h | h) | h)
      · exact Or.inr (by omega)
      · exact Or.inl h
      · exact Or.inr (by omega)
    · rintro (h | h)
      · exact Or.inl (Or.inr h)
      · by_cases hi : i = off
        · exact Or.inl (Or.inl hi)
        · exact Or.inr (by omega)

/-- One iteration of the receive loop, run under the loop condition with a
serial port that never delivers more than it is asked for. -/
theorem recvStep_spec (uart : Nat → Nat → List U8)
    (hU : ∀ call max, (uart call max).length ≤ max) (call : Nat) (s : RecvState)
    (h0 : 0 ≤ s.recvd) (hlt : s.recvd < (IMAGE_SIZE : Int)) :
    s.recvd ≤ (recvStep uart call s).recvd ∧
    (recvStep uart call s).recvd ≤ (IMAGE_SIZE : Int) ∧
    (∀ i ∈ (recvStep uart call s).image.stores,
      i ∈ s.image.stores ∨ (s.recvd.toNat ≤ i ∧ i < IMAGE_SIZE)) := by
  have hsize : (IMAGE_SIZE : Int) = 784 := by decide
  have hsizeN : IMAGE_SIZE = 784 := by decide
  have hmax : (((IMAGE_SIZE : Int) - s.recvd) % 2 ^ 32).toNat = 784 - s.recvd.toNat := by
    rw [hsize]
    omega
  have hlen := hU call (784 - s.recvd.toNat)
  unfold recvStep
  simp only [hmax]
  generalize uart call (784 - s.recvd.toNat) = got at hlen
  refine ⟨?_, ?_, ?_⟩
  · unfold wrapInt32
    omega
  · unfold wrapInt32
    rw [hsize]
    omega
  · intro i hi
    rw [mem_stores_storeBytes] at hi
    rcases hi with h | h
    · exact Or.inl h
    · exact Or.inr (by omega)


/-- When the receive loop exits, `recvd` is `IMAGE_SIZE` and it has stored
inside the image only. -/
theorem recvLoop_exit (uart : Nat → Nat → List U8)
    (hU : ∀ call max, (uart call max).length ≤ max) (old : List Nat)
    (fuel call : Nat) (s s' : RecvState)
    (h0 : 0 ≤ s.recvd) (hle : s.recvd ≤ (IMAGE_SIZE : Int))
    (hst : ∀ i ∈ s.image.stores, i ∈ old ∨ i < IMAGE_SIZE)
    (hres : recvLoop uart fuel call s = some s') :
    s'.recvd = (IMAGE_SIZE : Int) ∧ ∀ i ∈ s'.image.stores, i ∈ old ∨ i < IMAGE_SIZE := by
  induction fuel generalizing call s with
  | zero =>
    unfold recvLoop at hres
    split at hres
    · simp at hres
    · simp only [Option.some.injEq] at hres
      subst hres
      exact ⟨by omega, hst⟩
  | succ fuel ih =>
    unfold recvLoop at hres
    split at hres
    · rename_i hlt
      obtain ⟨h1, h2, h3⟩ := recvStep_spec uart hU call s h0 hlt
      refine ih (call + 1) (recvStep uart call s) (by omega) h2 ?_ hres
      intro i hi
      rcases h3 i hi with h | h
      · exact hst i h
      · exact Or.inr h.2
    · simp only [Option.some.injEq] at hres
      subst hres
      exact ⟨by omega, hst⟩

theorem imageSize_nonneg : (0 : Int) ≤ (IMAGE_SIZE : Int) := by decide

/-- C13: the image receive loop accumulates short reads without overrunning
the image.  Assume every receive call returns at most the count it was asked
for.  Then (1) after any number `k` of iterations run under the loop
condition, `0 ≤ recvd ≤ IMAGE_SIZE` and every offset stored to so far lies
inside the `IMAGE_SIZE = 784` bytes of the image; (2) the stores of an
iteration run under the loop condition start at offset `recvd` and end before
`IMAGE_SIZE`; (3) whenever the loop exits, `recvd` is exactly `IMAGE_SIZE`. -/
theorem C13_receive_loop (uart : Nat → Nat → List U8)
    (hU : ∀ call max, (uart call max).length ≤ max) (image0 : Buffer) :
    (∀ k : Nat,
      (∀ j, j < k → (recvIter uart { image := image0, recvd := 0 } j).recvd < (IMAGE_SIZE : Int)) →
      0 ≤ (recvIter uart { image := image0, recvd := 0 } k).recvd ∧
      (recvIter uart { image := image0, recvd := 0 } k).recvd ≤ (IMAGE_SIZE : Int) ∧
      ∀ i ∈ (recvIter uart { image := image0, recvd := 0 } k).image.stores,
        i ∈ image0.stores ∨ i < IMAGE_SIZE) ∧
    (∀ (call : Nat) (s : RecvState), 0 ≤ s.recvd → s.recvd < (IMAGE_SIZE : Int) →
      ∀ i ∈ (recvStep uart call s).image.stores,
        i ∈ s.image.stores ∨ (s.recvd.toNat ≤ i ∧ i < IMAGE_SIZE)) ∧
    (∀ (fuel : Nat) (s' : RecvState),
      recvLoop uart fuel 0 { image := image0, recvd := 0 } = some s' →
      s'.recvd = (IMAGE_SIZE : Int) ∧
      ∀ i ∈ s'.image.stores, i ∈ image0.stores ∨ i < IMAGE_SIZE) := by
  refine ⟨?_, ?_, ?_⟩
  · intro k
    induction k with
    | zero =>
      intro _
      exact ⟨Int.le_refl 0, imageSize_nonneg, fun i hi => Or.inl hi⟩
    | succ k ih =>
      intro hrun
      obtain ⟨h0, _, hst⟩ := ih (fun j hj => hrun j (Nat.lt_succ_of_lt hj))
      obtain ⟨h1, h2, h3⟩ := recvStep_spec uart hU k _ h0 (hrun k (Nat.lt_succ_self k))
      refine ⟨by show 0 ≤ (recvStep uart k _).recvd; omega, h2, ?_⟩
      intro i hi
      rcases h3 i hi with h | h
      · exact hst i h
      · exact Or.inr h.2
  · intro call s h0 hlt
    exact (recvStep_spec uart hU call s h0 hlt).2.2
  · intro fuel s' hres
    exact recvLoop_exit uart hU image0.stores fuel 0 _ s' (Int.le_refl 0) imageSize_nonneg
      (fun i hi => Or.inl hi) hres

theorem sampleUart_length (call max : Nat) : (sampleUart call max).length ≤ max := by
  simp [sampleUart]

/-- C13 with a serial port that delivers 100 bytes per call: the loop exits
at its eighth iteration, and then `recvd` is `IMAGE_SIZE`. -/
theorem C13_receive_loop_witness :
    (∀ call max, (sampleUart call max).length ≤ max) ∧
    (recvLoop sampleUart 8 0 { image := freshBuffer, recvd := 0 }).isSome = true ∧
    (∀ s', recvLoop sampleUart 8 0 { image := freshBuffer, recvd := 0 } = some s' →
      s'.recvd = (IMAGE_SIZE : Int) ∧
      ∀ i ∈ s'.image.stores, i ∈ freshBuffer.stores ∨ i < IMAGE_SIZE) :=
  ⟨sampleUart_length, by decide,
    (C13_receive_loop sampleUart sampleUart_length freshBuffer).2.2 8⟩


/-- With a silent serial port the receive loop is still running after any
number of iterations. -/
theorem recvLoop_silent (fuel call : Nat) (image : Buffer) :
    recvLoop silentUart fuel call { image := image, recvd := 0 } = none := by
  have hlt : (0 : Int) < (IMAGE_SIZE : Int) := by decide
  have hw : wrapInt32 ((0 : Int) + (((([] : List U8).length % 2 ^ 32 : Nat)) : Int)) = 0 := by
    decide
  have hstep : ∀ c, recvStep silentUart c { image := image, recvd := 0 }
      = { image := image, recvd := 0 } := by
    intro c
    show RecvState.mk (storeBytes image _ [])
      (wrapInt32 ((0 : Int) + (((([] : List U8).length % 2 ^ 32 : Nat)) : Int))) = _
    rw [hw]
    rfl
  induction fuel generalizing call with
  | zero =>
    unfold recvLoop
    rw [if_pos hlt]
  | succ fuel ih =>
    unfold recvLoop
    rw [if_pos hlt, hstep]
    exact ih (call + 1)

/-- C12 as stated fails: the scatter-gather check of `main` comes after the
receive loop, so with an engine that reports scatter-gather and a serial port
that respects its contract but never delivers a byte, `main` has not returned
`XST_FAILURE`, nor anything else, however long the loop is observed. -/
theorem C12_silent_uart_no_failure :
    (∀ call max, (silentUart call max).length ≤ max) ∧
    (∀ fuel : Nat, (silentSgEnv fuel).hasSg = true ∧
      main (silentSgEnv fuel) sampleState = none) := by
  refine ⟨fun _ _ => Nat.zero_le _, fun fuel => ⟨rfl, ?_⟩⟩
  unfold main
  have h : recvLoop (silentSgEnv fuel).uart (silentSgEnv fuel).uartFuel 0
      { image := sampleState.image, recvd := 0 } = none :=
    recvLoop_silent fuel 0 sampleState.image
  rw [h]

/-- C12, amended: if the transfer engine reports scatter-gather
(`XAxiDma_HasSg` true), `main`, once its receive loop has obtained the whole
image, fails with `XST_FAILURE` before any transfer is issued and with no side
effect on the buffers: the list of `XAxiDma_SimpleTransfer` calls is
unchanged, and so are `cols`, `tx_u8` (no store is made to it), `tx_u32` and
`RxBuffer`, `im2col`, `reorder_for_dma` and `pack_u8_to_u32` not being run; the
flags are not touched either.  While the image is still being received `main`
has not returned. -/
theorem C12_scatter_gather_fails_fast (env : Env) (s : MainState)
    (hsg : env.hasSg = true) :
    ((recvLoop env.uart env.uartFuel 0 { image := s.image, recvd := 0 }).isSome = true →
      ∃ s', main env s = some (XST_FAILURE, s') ∧
        s'.transfers = s.transfers ∧ s'.cols = s.cols ∧ s'.tx_u8 = s.tx_u8 ∧
        s'.tx_u32 = s.tx_u32 ∧ s'.RxBuffer = s.RxBuffer ∧ s'.flags = s.flags) ∧
    (recvLoop env.uart env.uartFuel 0 { image := s.image, recvd := 0 } = none →
      main env s = none) := by
  unfold main
  constructor
  · intro hsome
    obtain ⟨r, hr⟩ := Option.isSome_iff_exists.1 hsome
    rw [hr]
    show ∃ s', (if env.hasSg = true then some (XST_FAILURE, { s with image := r.image }) else _)
        = some (XST_FAILURE, s') ∧ _
    rw [if_pos hsg]
    exact ⟨_, rfl, rfl, rfl, rfl, rfl, rfl, rfl⟩
  · intro hnone
    rw [hnone]

/-- C12, amended, on an engine that reports scatter-gather, the image arriving
in eight calls: `main` returns `XST_FAILURE`, there is no transfer and no store to
`tx_u8`. -/
theorem C12_scatter_gather_fails_fast_witness :
    sgEnv.hasSg = true ∧
    (recvLoop sgEnv.uart sgEnv.uartFuel 0
      { image := sampleState.image, recvd := 0 }).isSome = true ∧
    ∃ s', main sgEnv sampleState = some (XST_FAILURE, s') ∧
      s'.transfers = sampleState.transfers ∧ s'.cols = sampleState.cols ∧
      s'.tx_u8 = sampleState.tx_u8 ∧ s'.tx_u32 = sampleState.tx_u32 ∧
      s'.RxBuffer = sampleState.RxBuffer ∧ s'.flags = sampleState.flags :=
  ⟨rfl, by decide, (C12_scatter_gather_fails_fast sgEnv sampleState rfl).1 (by decide)⟩


/-! ## The handlers and the wait loop, flag by flag -/

/-- C14: each notification handler touches only its own direction's
completion flag and the shared error indicator.  For every status value and
every flag state, `TxIntrHandler` leaves `RxDone` unchanged and
`RxIntrHandler` leaves `TxDone` unchanged; a handler invoked with the error
bit clear leaves `Error` unchanged; and no handler clears a flag: after a
handler each of `TxDone`, `RxDone`, `Error` has its previous value or is 1,
so a flag that was not 0 is not 0 afterwards. -/
theorem C14_handlers_frame (m : IrqMasks) (status : Nat) (s : Flags) :
    (TxIntrHandler m status s).RxDone = s.RxDone ∧
    (RxIntrHandler m status s).TxDone = s.TxDone ∧
    (status &&& m.XAXIDMA_IRQ_ERROR_MASK = 0 →
      (TxIntrHandler m status s).Error = s.Error ∧
      (RxIntrHandler m status s).Error = s.Error) ∧
    ((TxIntrHandler m status s).TxDone = s.TxDone ∨ (TxIntrHandler m status s).TxDone = 1) ∧
    ((RxIntrHandler m status s).RxDone = s.RxDone ∨ (RxIntrHandler m status s).RxDone = 1) ∧
    ((TxIntrHandler m status s).Error = s.Error ∨ (TxIntrHandler m status s).Error = 1) ∧
    ((RxIntrHandler m status s).Error = s.Error ∨ (RxIntrHandler m status s).Error = 1) ∧
    (s.TxDone ≠ 0 → (TxIntrHandler m status s).TxDone ≠ 0) ∧
    (s.RxDone ≠ 0 → (RxIntrHandler m status s).RxDone ≠ 0) ∧
    (s.Error ≠ 0 →
      (TxIntrHandler m status s).Error ≠ 0 ∧ (RxIntrHandler m status s).Error ≠ 0) := by
  unfold TxIntrHandler RxIntrHandler
  by_cases h1 : status &&& m.XAXIDMA_IRQ_ERROR_MASK = 0 <;>
    by_cases h2 : status &&& m.XAXIDMA_IRQ_IOC_MASK = 0 <;>
    simp [h1, h2]

/-- C14 with the masks of the Xilinx driver, on the status `0x1000` (IOC only)
and flags that are all set. -/
theorem C14_handlers_frame_witness :
    (0x1000 &&& xilinxMasks.XAXIDMA_IRQ_ERROR_MASK = 0 ∧
      (TxIntrHandler xilinxMasks 0x1000
        { TxDone := 1, RxDone := 1, Error := 1, resets := 0 }).Error = 1 ∧
      (RxIntrHandler xilinxMasks 0x1000
        { TxDone := 1, RxDone := 1, Error := 1, resets := 0 }).Error = 1) ∧
    (TxIntrHandler xilinxMasks 0x1000
      { TxDone := 1, RxDone := 1, Error := 1, resets := 0 }).TxDone ≠ 0 :=
  ⟨⟨by decide,
      (C14_handlers_frame xilinxMasks 0x1000
        { TxDone := 1, RxDone := 1, Error := 1, resets := 0 }).2.2.1 (by decide)⟩,
    (C14_handlers_frame xilinxMasks 0x1000
      { TxDone := 1, RxDone := 1, Error := 1, resets := 0 }).2.2.2.2.2.2.2.1 (by decide)⟩

/-- C17: in a notification handler the error bit takes precedence over the
completion bit.  For every status value with the error bit set (the IOC bit
set or not), `TxIntrHandler` and `RxIntrHandler` set `Error` to 1, call
`XAxiDma_Reset` once and leave both `Done` flags, their own included,
unchanged; for a status with neither bit set the handler changes no flag and
calls no reset. -/
theorem C17_error_bit_first (m : IrqMasks) (status : Nat) (s : Flags) :
    (status &&& m.XAXIDMA_IRQ_ERROR_MASK ≠ 0 →
      ((TxIntrHandler m status s).Error = 1 ∧
        (TxIntrHandler m status s).resets = s.resets + 1 ∧
        (TxIntrHandler m status s).TxDone = s.TxDone ∧
        (TxIntrHandler m status s).RxDone = s.RxDone) ∧
      ((RxIntrHandler m status s).Error = 1 ∧
        (RxIntrHandler m status s).resets = s.resets + 1 ∧
        (RxIntrHandler m status s).RxDone = s.RxDone ∧
        (RxIntrHandler m status s).TxDone = s.TxDone)) ∧
    (status &&& m.XAXIDMA_IRQ_ERROR_MASK = 0 → status &&& m.XAXIDMA_IRQ_IOC_MASK = 0 →
      TxIntrHandler m status s = s ∧ RxIntrHandler m status s = s) := by
  unfold TxIntrHandler RxIntrHandler
  constructor
  · intro h
    simp [h]
  · intro h1 h2
    simp [h1, h2]

/-- C17 with the masks of the Xilinx driver: the status `0x5000` has both
bits, the status `0x2000` has neither. -/
theorem C17_error_bit_first_witness :
    (0x5000 &&& xilinxMasks.XAXIDMA_IRQ_ERROR_MASK ≠ 0 ∧
      0x5000 &&& xilinxMasks.XAXIDMA_IRQ_IOC_MASK ≠ 0 ∧
      (TxIntrHandler xilinxMasks 0x5000 resetFlags).Error = 1 ∧
      (TxIntrHandler xilinxMasks 0x5000 resetFlags).resets = resetFlags.resets + 1 ∧
      (TxIntrHandler xilinxMasks 0x5000 resetFlags).TxDone = resetFlags.TxDone ∧
      (TxIntrHandler xilinxMasks 0x5000 resetFlags).RxDone = resetFlags.RxDone) ∧
    (0x2000 &&& xilinxMasks.XAXIDMA_IRQ_ERROR_MASK = 0 ∧
      0x2000 &&& xilinxMasks.XAXIDMA_IRQ_IOC_MASK = 0 ∧
      TxIntrHandler xilinxMasks 0x2000 resetFlags = resetFlags ∧
      RxIntrHandler xilinxMasks 0x2000 resetFlags = resetFlags) :=
  ⟨⟨by decide, by decide,
      ((C17_error_bit_first xilinxMasks 0x5000 resetFlags).1 (by decide)).1⟩,
    ⟨by decide, by decide,
      (C17_error_bit_first xilinxMasks 0x2000 resetFlags).2 (by decide) (by decide)⟩⟩

/-- C18: the verdict of the wait loop of `main` is a function of the flags in
which `Error` is consulted only while some `Done` flag is clear.  For every
flag state one poll yields `Completed` (the loop exits to the success path)
iff `TxDone ≠ 0` and `RxDone ≠ 0`, yields `Failed` iff (`TxDone = 0` or
`RxDone = 0`) and `Error ≠ 0`, and stays `Pending` otherwise; so a state with
`TxDone = RxDone = Error = 1` is reported as `Completed`, not `Failed`. -/
theorem C18_poll_verdict (s : Flags) (r : Nat) :
    (poll s = Verdict.Completed ↔ s.TxDone ≠ 0 ∧ s.RxDone ≠ 0) ∧
    (poll s = Verdict.Failed ↔ (s.TxDone = 0 ∨ s.RxDone = 0) ∧ s.Error ≠ 0) ∧
    (poll s = Verdict.Pending ↔ (s.TxDone = 0 ∨ s.RxDone = 0) ∧ s.Error = 0) ∧
    poll { TxDone := 1, RxDone := 1, Error := 1, resets := r } = Verdict.Completed ∧
    poll { TxDone := 1, RxDone := 1, Error := 1, resets := r } ≠ Verdict.Failed := by
  unfold poll
  refine ⟨?_, ?_, ?_, by simp, by simp⟩ <;>
    by_cases h1 : s.TxDone = 0 <;> by_cases h2 : s.RxDone = 0 <;>
    by_cases h3 : s.Error = 0 <;> simp [h1, h2, h3]


/-! ## `reorder_for_dma`: one write per sample -/

/-- The indices of the writes of a loop are distinct when those of each
iteration are and two iterations never share an index. -/
theorem nodup_keys_flatMap_range (n : Nat) (A : Nat → List (Nat × U8))
    (h1 : ∀ a, ((A a).map Prod.fst).Nodup)
    (h2 : ∀ a b, a ≠ b → ∀ x ∈ A a, ∀ y ∈ A b, x.1 ≠ y.1) :
    (((List.range n).flatMap A).map Prod.fst).Nodup := by
  induction n with
  | zero => simp
  | succ n ih =>
    rw [List.range_succ, List.flatMap_append, List.map_append, List.nodup_append]
    refine ⟨ih, by simpa using h1 n, ?_⟩
    intro i hi hi'
    simp only [List.mem_map, List.mem_flatMap, List.mem_range, List.flatMap_cons,
      List.flatMap_nil, List.append_nil] at hi hi'
    obtain ⟨x, ⟨a, ha, hx⟩, rfl⟩ := hi
    obtain ⟨y, hy, hxy⟩ := hi'
    exact h2 a n (by omega) x hx y hy hxy.symm

/-- The number of writes of a loop whose iterations each make `c` writes. -/
theorem length_flatMap_range {α : Type} (n c : Nat) (A : Nat → List α)
    (h : ∀ a, (A a).length = c) : ((List.range n).flatMap A).length = n * c := by
  induction n with
  | zero => simp
  | succ n ih =>
    rw [List.range_succ, List.flatMap_append, List.length_append, ih]
    simp [h, Nat.succ_mul]

theorem length_reorderFullWrites (K win WB : Nat) (cols : Matrix) :
    (reorderFullWrites K win WB cols).length = win * (K * K * WB) := by
  unfold reorderFullWrites
  refine length_flatMap_range _ _ _ (fun w => ?_)
  refine length_flatMap_range _ _ _ (fun k => ?_)
  simpa using length_flatMap_range WB 1
    (fun p => [(w * K * K * WB + k * WB + p, cols k (w * WB + p))]) (fun _ => rfl)

theorem length_reorderRemWrites (K win rem WB : Nat) (cols : Matrix) :
    (reorderRemWrites K win rem WB cols).length = K * K * rem := by
  unfold reorderRemWrites
  refine length_flatMap_range _ _ _ (fun k => ?_)
  simpa using length_flatMap_range rem 1
    (fun p => [(win * K * K * WB + k * WB + p, cols k (win * WB + p))]) (fun _ => rfl)


/-- No two writes of `reorder_for_dma` go to the same index. -/
theorem nodup_reorder_keys (K P WB : Nat) (hWB : 0 < WB) (cols : Matrix) :
    ((reorderFullWrites K (P / WB) WB cols
      ++ reorderRemWrites K (P / WB) (P % WB) WB cols).map Prod.fst).Nodup := by
  have hrem : P % WB < WB := Nat.mod_lt _ hWB
  rw [List.map_append, List.nodup_append]
  refine ⟨?_, ?_, ?_⟩
  · unfold reorderFullWrites
    refine nodup_keys_flatMap_range _ _ (fun w => ?_) ?_
    · refine nodup_keys_flatMap_range _ _ (fun k => ?_) ?_
      · refine nodup_keys_flatMap_range _ _ (fun p => by simp) ?_
        intro p p' hne x hx y hy heq
        simp only [List.mem_singleton] at hx hy
        subst hx
        subst hy
        simp only at heq
        omega
      · intro k k' hne x hx y hy heq
        simp only [List.mem_flatMap, List.mem_range, List.mem_singleton] at hx hy
        obtain ⟨p, hp, rfl⟩ := hx
        obtain ⟨p', hp', rfl⟩ := hy
        simp only at heq
        exact hne (mul_add_inj WB k p k' p' hp hp' (by omega)).1
    · intro w w' hne x hx y hy heq
      simp only [List.mem_flatMap, List.mem_range, List.mem_singleton] at hx hy
      obtain ⟨k, hk, p, hp, rfl⟩ := hx
      obtain ⟨k', hk', p', hp', rfl⟩ := hy
      exact hne (reorder_index_inj K WB w k p w' k' p' hk hk' hp hp' heq).1
  · unfold reorderRemWrites
    refine nodup_keys_flatMap_range _ _ (fun k => ?_) ?_
    · refine nodup_keys_flatMap_range _ _ (fun p => by simp) ?_
      intro p p' hne x hx y hy heq
      simp only [List.mem_singleton] at hx hy
      subst hx
      subst hy
      simp only at heq
      omega
    · intro k k' hne x hx y hy heq
      simp only [List.mem_flatMap, List.mem_range, List.mem_singleton] at hx hy
      obtain ⟨p, hp, rfl⟩ := hx
      obtain ⟨p', hp', rfl⟩ := hy
      simp only at heq
      exact hne (mul_add_inj WB k p k' p' (by omega) (by omega) (by omega)).1
  · intro i hi hi'
    simp only [List.mem_map] at hi hi'
    obtain ⟨x, hx, rfl⟩ := hi
    obtain ⟨y, hy, hxy⟩ := hi'
    rw [mem_reorderFullWrites] at hx
    rw [mem_reorderRemWrites] at hy
    obtain ⟨w, hw, k, hk, p, hp, rfl⟩ := hx
    obtain ⟨k', hk', p', hp', rfl⟩ := hy
    have := (reorder_index_inj K WB w k p (P / WB) k' p' hk hk' hp (by omega) hxy.symm).1
    omega

/-- Writes to distinct indices can be performed in any order. -/
theorem applyWrites_perm {σ ι : Type} [DecidableEq ι] (rd : σ → ι → U8)
    (wr : σ → ι → U8 → σ)
    (hrw : ∀ s i v j, rd (wr s i v) j = if j = i then v else rd s j)
    (ws ws' : List (ι × U8)) (hnd : (ws.map Prod.fst).Nodup) (hp : ws'.Perm ws)
    (s : σ) (i : ι) :
    rd (applyWrites wr ws' s) i = rd (applyWrites wr ws s) i := by
  by_cases h : ∃ v, (i, v) ∈ ws
  · obtain ⟨v, hv⟩ := h
    have huniq : ∀ v', (i, v') ∈ ws → v' = v := by
      intro v' hv'
      have := List.inj_on_of_nodup_map hnd hv' hv rfl
      exact (Prod.mk.inj this).2
    rw [applyWrites_read rd wr hrw ws s i v hv huniq,
      applyWrites_read rd wr hrw ws' s i v (hp.mem_iff.2 hv)
        (fun v' hv' => huniq v' (hp.mem_iff.1 hv'))]
  · have hnot : ∀ w ∈ ws, w.1 ≠ i := by
      intro w hw heq
      exact h ⟨w.2, by rw [← heq]; exact hw⟩
    rw [applyWrites_frame rd wr hrw ws s i hnot,
      applyWrites_frame rd wr hrw ws' s i (fun w hw => hnot w (hp.mem_iff.1 hw))]


/-- The destination index map is injective in the kernel row and the
column. -/
theorem destIndex_inj (K WB : Nat) (hWB : 0 < WB) (k p k' p' : Nat) (hk : k < K * K)
    (hk' : k' < K * K) (h : destIndex K WB k p = destIndex K WB k' p') :
    k = k' ∧ p = p' := by
  obtain ⟨h1, h2, h3⟩ := reorder_index_inj K WB (p / WB) k (p % WB) (p' / WB) k' (p' % WB)
    hk hk' (Nat.mod_lt _ hWB) (Nat.mod_lt _ hWB) h
  have e := Nat.div_add_mod p WB
  have e' := Nat.div_add_mod p' WB
  rw [h1, h3] at e
  exact ⟨h2, by omega⟩

theorem div_mod_of_window (WB w o : Nat) (ho : o < WB) :
    (w * WB + o) / WB = w ∧ (w * WB + o) % WB = o := by
  have hWB : 0 < WB := by omega
  constructor
  · rw [Nat.add_comm, Nat.add_mul_div_right _ _ hWB, Nat.div_eq_of_lt ho, Nat.zero_add]
  · rw [Nat.add_comm, Nat.add_mul_mod_self_right, Nat.mod_eq_of_lt ho]

/-- The indices written by `reorder_for_dma` are the destinations of the
samples `cols[k][p]`, `k < K*K`, `p < P`. -/
theorem mem_reorder_keys (K P WB : Nat) (hWB : 0 < WB) (cols : Matrix) (i : Nat) :
    i ∈ (reorderFullWrites K (P / WB) WB cols
        ++ reorderRemWrites K (P / WB) (P % WB) WB cols).map Prod.fst ↔
      ∃ k p, k < K * K ∧ p < P ∧ i = destIndex K WB k p := by
  have hrem : P % WB < WB := Nat.mod_lt _ hWB
  have hP : P / WB * WB + P % WB = P := by
    rw [Nat.mul_comm]
    exact Nat.div_add_mod P WB
  simp only [List.mem_map, List.mem_append, mem_reorderFullWrites, mem_reorderRemWrites]
  constructor
  · rintro ⟨e, (⟨w, hw, k, hk, o, ho, rfl⟩ | ⟨k, hk, o, ho, rfl⟩), rfl⟩
    · obtain ⟨h1, h2⟩ := div_mod_of_window WB w o ho
      refine ⟨k, w * WB + o, hk, ?_, ?_⟩
      · have : (w + 1) * WB ≤ P / WB * WB := Nat.mul_le_mul_right WB hw
        rw [Nat.add_mul] at this
        omega
      · unfold destIndex
        rw [h1, h2]
    · obtain ⟨h1, h2⟩ := div_mod_of_window WB (P / WB) o (by omega)
      refine ⟨k, P / WB * WB + o, hk, by omega, ?_⟩
      unfold destIndex
      rw [h1, h2]
  · rintro ⟨k, p, hk, hp, rfl⟩
    have hp' : p / WB * WB + p % WB = p := by
      rw [Nat.mul_comm]
      exact Nat.div_add_mod p WB
    have hle : p / WB ≤ P / WB := Nat.div_le_div_right (Nat.le_of_lt hp)
    by_cases hw : p / WB < P / WB
    · exact ⟨(destIndex K WB k p, cols k (p / WB * WB + p % WB)),
        Or.inl ⟨p / WB, hw, k, hk, p % WB, Nat.mod_lt _ hWB, rfl⟩, rfl⟩
    · have heq : p / WB = P / WB := by omega
      refine ⟨(destIndex K WB k p, cols k (P / WB * WB + p % WB)),
        Or.inr ⟨k, hk, p % WB, ?_, ?_⟩, rfl⟩
      · rw [heq] at hp'
        omega
      · unfold destIndex
        rw [heq]


/-- After `reorder_for_dma` the sample `cols[k][p]` is at its destination
index. -/
theorem reorder_data_destIndex (K P WB : Nat) (hWB : 0 < WB) (cols : Matrix)
    (buffer : Buffer) (k p : Nat) (hk : k < K * K) (hp : p < P) :
    (reorder_for_dma K P WB cols buffer).data (destIndex K WB k p) = cols k p := by
  have hp' : p / WB * WB + p % WB = p := by
    rw [Nat.mul_comm]
    exact Nat.div_add_mod p WB
  have hP : P / WB * WB + P % WB = P := by
    rw [Nat.mul_comm]
    exact Nat.div_add_mod P WB
  have hle : p / WB ≤ P / WB := Nat.div_le_div_right (Nat.le_of_lt hp)
  have h := reorder_data K P WB cols buffer (p / WB) k (p % WB) hk (Nat.mod_lt _ hWB) (by
    by_cases hw : p / WB < P / WB
    · exact Or.inl hw
    · have heq : p / WB = P / WB := by omega
      refine Or.inr ⟨heq, ?_⟩
      rw [heq] at hp'
      omega)
  rw [hp'] at h
  exact h

/-- C16: `reorder_for_dma` never writes two patch samples to the same buffer
position (`WB` positive, the function dividing by it).  The destination index
map `(k, p) ↦ (p / WB)*K*K*WB + k*WB + (p mod WB)` is injective on `k < K*K`,
`p < P`, and it is the map the two passes use: the sample `cols[k][p]` ends up
at that index.  The call performs exactly `K*K*P` stores, to distinct indices,
which are the values of the map; and performing the same writes in any other
order leaves the same bytes. -/
theorem C16_reorder_one_write_per_sample (K P WB : Nat) (hWB : 0 < WB) (cols : Matrix)
    (buffer : Buffer) :
    (∀ k p k' p', k < K * K → p < P → k' < K * K → p' < P →
      destIndex K WB k p = destIndex K WB k' p' → k = k' ∧ p = p') ∧
    (∀ k p, k < K * K → p < P →
      (reorder_for_dma K P WB cols buffer).data (destIndex K WB k p) = cols k p) ∧
    (∃ new : List Nat,
      (reorder_for_dma K P WB cols buffer).stores = new ++ buffer.stores ∧
      new.length = K * K * P ∧ new.Nodup ∧
      ∀ i, i ∈ new ↔ ∃ k p, k < K * K ∧ p < P ∧ i = destIndex K WB k p) ∧
    (∀ ws : List (Nat × U8),
      ws.Perm (reorderFullWrites K (P / WB) WB cols
        ++ reorderRemWrites K (P / WB) (P % WB) WB cols) →
      ∀ i, (applyWrites Buffer.store ws buffer).data i
        = (reorder_for_dma K P WB cols buffer).data i) := by
  refine ⟨?_, ?_, ?_, ?_⟩
  · intro k p k' p' hk _ hk' _ h
    exact destIndex_inj K WB hWB k p k' p' hk hk' h
  · intro k p hk hp
    exact reorder_data_destIndex K P WB hWB cols buffer k p hk hp
  · refine ⟨_, by rw [reorder_eq_writes, stores_applyWrites], ?_, ?_, ?_⟩
    · rw [List.length_reverse, List.length_map, List.length_append,
        length_reorderFullWrites, length_reorderRemWrites]
      have hP : P / WB * WB + P % WB = P := by
        rw [Nat.mul_comm]
        exact Nat.div_add_mod P WB
      calc P / WB * (K * K * WB) + K * K * (P % WB)
          = K * K * (P / WB * WB + P % WB) := by ring
        _ = K * K * P := by rw [hP]
    · exact List.nodup_reverse.2 (nodup_reorder_keys K P WB hWB cols)
    · intro i
      rw [List.mem_reverse]
      exact mem_reorder_keys K P WB hWB cols i
  · intro ws hp i
    rw [reorder_eq_writes]
    exact applyWrites_perm Buffer.data Buffer.store Buffer.data_store _ ws
      (nodup_reorder_keys K P WB hWB cols) hp buffer i

/-- C16 at `K = 3`, `P = 9`, `WB = 8`: the last sample `cols[8][8]`, the only
column of the remainder, is at index `72 + 8*8 + 0 = 136`. -/
theorem C16_reorder_one_write_per_sample_witness :
    0 < 8 ∧ 8 < 3 * 3 ∧ 8 < 9 ∧ destIndex 3 8 8 8 = 136 ∧
    (reorder_for_dma 3 9 8 sampleCols freshBuffer).data (destIndex 3 8 8 8)
      = sampleCols 8 8 :=
  ⟨by decide, by decide, by decide, by decide,
    (C16_reorder_one_write_per_sample 3 9 8 (by decide) sampleCols freshBuffer).2.1 8 8
      (by decide) (by decide)⟩


/-! ## The outbound payload -/

/-- An index that is the destination of no sample keeps its byte. -/
theorem reorder_frame_destIndex (K P WB : Nat) (hWB : 0 < WB) (cols : Matrix)
    (buffer : Buffer) (i : Nat)
    (hnot : ¬ ∃ k p, k < K * K ∧ p < P ∧ i = destIndex K WB k p) :
    (reorder_for_dma K P WB cols buffer).data i = buffer.data i := by
  rw [reorder_eq_writes]
  apply applyWrites_frame Buffer.data Buffer.store Buffer.data_store
  intro e he heq
  exact hnot ((mem_reorder_keys K P WB hWB cols i).1 (List.mem_map.2 ⟨e, he, heq⟩))

/-- In the configuration of the source, the first `tx_bytes` bytes of `tx_u8`
after `reorder_for_dma` do not depend on the sample `cols[5][672]`. -/
theorem reorder_ignores_entry (cols : Matrix) (buffer : Buffer) (v : U8) (j : Nat)
    (hj : j < 6084) :
    (reorder_for_dma 3 676 8 (cols.set 5 672 v) buffer).data j
      = (reorder_for_dma 3 676 8 cols buffer).data j := by
  by_cases h : ∃ k p, k < 3 * 3 ∧ p < 676 ∧ j = destIndex 3 8 k p
  · obtain ⟨k, p, hk, hp, rfl⟩ := h
    rw [reorder_data_destIndex 3 676 8 (by decide) _ buffer k p hk hp,
      reorder_data_destIndex 3 676 8 (by decide) _ buffer k p hk hp]
    unfold Matrix.set
    have hne : ¬ (k = 5 ∧ p = 672) := by
      rintro ⟨rfl, rfl⟩
      have h6088 : destIndex 3 8 5 672 = 6088 := by decide
      omega
    rw [if_neg hne]
  · rw [reorder_frame_destIndex 3 676 8 (by decide) _ buffer j h,
      reorder_frame_destIndex 3 676 8 (by decide) _ buffer j h]

/-- The packed words depend on the first `n` source bytes only. -/
theorem pack_congr (src src' : Nat → U8) (dst : Nat → Nat) (n : Nat)
    (hn : (n : Int) ≤ INT_MAX - 3) (h : ∀ j, j < n → src j = src' j) :
    pack_u8_to_u32 src dst (n : Int) = pack_u8_to_u32 src' dst (n : Int) := by
  have hb : ∀ j, byteOrZero src n j = byteOrZero src' n j := by
    intro j
    unfold byteOrZero
    by_cases hj : j < n
    · rw [if_pos hj, if_pos hj, h j hj]
    · rw [if_neg hj, if_neg hj]
  rw [pack_eq _ _ _ hn, pack_eq _ _ _ hn]
  funext w
  unfold packedWord
  rw [hb, hb, hb, hb]

set_option maxRecDepth 100000 in
/-- The entries whose destination is at or beyond `tx_bytes` are the sixteen
entries of the kernel rows 5 to 8 in the remainder columns 672 to 675. -/
theorem unsentEntries_eq :
    unsentEntries
      = [(5, 672), (5, 673), (5, 674), (5, 675), (6, 672), (6, 673), (6, 674), (6, 675),
         (7, 672), (7, 673), (7, 674), (7, 675), (8, 672), (8, 673), (8, 674), (8, 675)] := by
  decide

/-- C15 (fails on the code): the outbound payload does not carry the whole
patch matrix.  For the entry `k = 5`, `p = 672` the byte number
`(p/8)*72 + k*8 + (p mod 8)` is 6088, not below `tx_bytes = 6084`; and
composing `reorder_for_dma` and `pack_u8_to_u32` as `main` does
(`bytes = tx_bytes`), the words of `tx_u32` are the same whatever value
`cols[5][672]` has: that entry is not in the transmitted data.  Sixteen
entries in all have their byte number at or beyond `tx_bytes`. -/
theorem C15_payload_misses_entry (cols : Matrix) (buffer : Buffer) (dst : Nat → Nat)
    (v : U8) :
    unsentEntries.length = 16 ∧ (5, 672) ∈ unsentEntries ∧
    destIndex KERNEL_SIZE WINDOW_SIZE 5 672 = 672 / 8 * 72 + 5 * 8 + 672 % 8 ∧
    destIndex KERNEL_SIZE WINDOW_SIZE 5 672 = 6088 ∧
    ¬ (destIndex KERNEL_SIZE WINDOW_SIZE 5 672 < tx_bytes) ∧
    5 < KERNEL_SIZE * KERNEL_SIZE ∧ 672 < NUM_PATCHES ∧
    pack_u8_to_u32
        (reorder_for_dma KERNEL_SIZE NUM_PATCHES WINDOW_SIZE (cols.set 5 672 v) buffer).data
        dst (tx_bytes : Int)
      = pack_u8_to_u32
        (reorder_for_dma KERNEL_SIZE NUM_PATCHES WINDOW_SIZE cols buffer).data
        dst (tx_bytes : Int) := by
  refine ⟨by rw [unsentEntries_eq]; rfl, by rw [unsentEntries_eq]; simp,
    by decide, by decide, by decide, by decide, by decide, ?_⟩
  have hK : KERNEL_SIZE = 3 := rfl
  have hP : NUM_PATCHES = 676 := by decide
  have hWB : WINDOW_SIZE = 8 := rfl
  have hn : tx_bytes = 6084 := by decide
  rw [hK, hP, hWB, hn]
  exact pack_congr _ _ dst 6084 (by decide)
    (fun j hj => reorder_ignores_entry cols buffer v j hj)

end SIMDProcessor
